import Mathlib

/-!
Verification of the `try-partialord` crate: ordering algorithms (stable merge
sort, binary search, min/max selection, sortedness check) for element types
with only a possibly-undefined comparison.

The Rust sources are shallowly embedded: slices become `List α`, the fallible
comparator becomes `α → α → Option Bool` (an `is_less` test, as in
`sort/mod.rs`) or `α → α → Option Ordering` (as in `min_max.rs` and
`binary_search.rs`), and functions that mutate a borrowed slice return the
final slice state explicitly.  A slice-mutating function that can abort
returns `Except (List α) (List α)`: the `error` payload is the slice state
left behind when the comparator produced `None` (after the drop-guard repairs
performed by `InsertionHole` / `MergeHole` in the source), the `ok` payload is
the state on success.
-/

set_option maxHeartbeats 1000000

universe u

variable {α : Type u}

/-- Mirrors `InvalidOrderError` from `lib.rs`: the single error value returned
when `partial_cmp` yields `None` during an operation. -/
structure InvalidOrderError : Type where

deriving instance DecidableEq for InvalidOrderError

/-- Mirrors `SortError` from `sort/mod.rs`. -/
structure SortError : Type where

deriving instance DecidableEq for SortError

deriving instance DecidableEq for Except

/-- A model of `f32` values for concrete test inputs: `some q` is an ordinary
float (represented by an integer), `none` is a NaN.  `float_cmp` models
`PartialOrd::partial_cmp` on `f32`: defined (and total) on non-NaN values,
undefined as soon as a NaN is involved. -/
def float_cmp (a b : Option Int) : Option Ordering :=
  match a, b with
  | some x, some y => some (if x < y then .lt else if x = y then .eq else .gt)
  | _, _ => none

/-- A total comparison on the float model agreeing with `float_cmp` on
non-NaN values, used as the abstract order underlying `float_cmp` in concrete
witnesses. -/
def float_ord (a b : Option Int) : Ordering :=
  match a, b with
  | some x, some y => if x < y then .lt else if x = y then .eq else .gt
  | some _, none => .lt
  | none, some _ => .gt
  | none, none => .eq

/-! ## `min_max.rs` -/

/-- The `try_fold` loop inside `try_select_by` of `min_max.rs`: the accumulator
is the current best candidate (`None` before the first element); a new element
`b` replaces the best `m` exactly when `compare m b == target`; an undefined
comparison aborts with `InvalidOrderError`. -/
def try_select_by_go (cmp : α → α → Option Ordering) (target : Ordering) :
    Option α → List α → Except InvalidOrderError (Option α)
  | acc, [] => .ok acc
  | none, b :: rest => try_select_by_go cmp target (some b) rest
  | some m, b :: rest =>
    match cmp m b with
    | none => .error ⟨⟩
    | some o => try_select_by_go cmp target (some (if o = target then b else m)) rest

/-- Mirrors `try_select_by` of `min_max.rs` (iterators are embedded as lists,
consumed left to right). -/
def try_select_by (cmp : α → α → Option Ordering) (target : Ordering)
    (l : List α) : Except InvalidOrderError (Option α) :=
  try_select_by_go cmp target none l

/-- Mirrors `TryMinMax::try_min_by`: `try_select_by` with target
`Ordering::Greater`. -/
def try_min_by (cmp : α → α → Option Ordering) (l : List α) :
    Except InvalidOrderError (Option α) :=
  try_select_by cmp Ordering.gt l

/-- Mirrors `TryMinMax::try_min` (the comparator is the element type's
`partial_cmp`, passed here as the parameter `pcmp`). -/
def try_min (pcmp : α → α → Option Ordering) (l : List α) :
    Except InvalidOrderError (Option α) :=
  try_select_by pcmp Ordering.gt l

/-- Mirrors `TryMinMax::try_max_by`: `try_select_by` with target
`Ordering::Less`. -/
def try_max_by (cmp : α → α → Option Ordering) (l : List α) :
    Except InvalidOrderError (Option α) :=
  try_select_by cmp Ordering.lt l

/-- Mirrors `TryMinMax::try_max`. -/
def try_max (pcmp : α → α → Option Ordering) (l : List α) :
    Except InvalidOrderError (Option α) :=
  try_select_by pcmp Ordering.lt l

/-! ## `binary_search.rs` -/

/-- The `while size > 0` loop of `try_binary_search_by_inner`
(`binary_search.rs`, non-`try_v2` version).  The Rust `Result<usize, usize>`
(found index / insertion index) is embedded as `Except Nat Nat` with
`.ok` = found and `.error` = insertion point; the outer `Option` is `none`
when a probe's comparison was undefined. -/
def binary_search_loop [Inhabited α] (cmp : α → Option Ordering)
    (slice : List α) (left right : Nat) : Option (Except Nat Nat) :=
  if 0 < right - left then
    let mid := left + (right - left) / 2
    match cmp (slice.getD mid default) with
    | none => none
    | some .lt => binary_search_loop cmp slice (mid + 1) right
    | some .gt => binary_search_loop cmp slice left mid
    | some .eq => some (.ok mid)
  else
    some (.error left)
termination_by right - left
decreasing_by all_goals omega

/-- Mirrors `try_binary_search_by_inner`: the loop starting from
`left = 0`, `right = size = slice.len()`. -/
def try_binary_search_by_inner [Inhabited α] (cmp : α → Option Ordering)
    (slice : List α) : Option (Except Nat Nat) :=
  binary_search_loop cmp slice 0 slice.length

/-- Mirrors `TryBinarySearch::try_binary_search_by` for `[T]`:
`try_binary_search_by_inner(self, compare).ok_or(InvalidOrderError)`. -/
def try_binary_search_by [Inhabited α] (cmp : α → Option Ordering)
    (slice : List α) : Except InvalidOrderError (Except Nat Nat) :=
  match try_binary_search_by_inner cmp slice with
  | some r => .ok r
  | none => .error ⟨⟩

/-- Mirrors `TryBinarySearch::try_binary_search`: the comparator compares each
element against the target `x` by `partial_cmp` (passed as `pcmp`). -/
def try_binary_search [Inhabited α] (pcmp : α → α → Option Ordering) (x : α)
    (slice : List α) : Except InvalidOrderError (Except Nat Nat) :=
  try_binary_search_by (fun a => pcmp a x) slice

/-! ## Sortedness check (not present under `src/`) -/

/-- Modelled from the spec: the public sortedness check `try_is_sorted_by`
(`is_sorted(sequence, comparator)`), which the crate documentation in `lib.rs`
uses but whose source file is not under `src/`.  Spec §4.4: a single
left-to-right scan comparing each adjacent pair; `true` if every adjacent pair
satisfies the non-descending relation, `false` on the first pair that violates
it, failure on the first undefined comparison, whichever is hit first; zero or
one element is trivially sorted with no comparisons performed. -/
def try_is_sorted_by (cmp : α → α → Option Ordering) :
    List α → Except InvalidOrderError Bool
  | a :: b :: rest =>
    match cmp a b with
    | none => .error ⟨⟩
    | some .gt => .ok false
    | some _ => try_is_sorted_by cmp (b :: rest)
  | _ => .ok true

/-- Modelled from the spec: `try_is_sorted`, the `partial_cmp` instance of
`try_is_sorted_by`. -/
def try_is_sorted (pcmp : α → α → Option Ordering) (l : List α) :
    Except InvalidOrderError Bool :=
  try_is_sorted_by pcmp l

/-! ## `sort/mod.rs`: the stable merge sort ported from std -/

/-- The insertion loop of `insert_head` (`sort/mod.rs`): `tmp` is the element
held in the `InsertionHole`; it moves right past every element comparing
strictly less than it.  On an undefined comparison the hole's drop guard
writes `tmp` into the current hole, so the `error` payload still contains
every element exactly once. -/
def insert_head_loop (lt? : α → α → Option Bool) (tmp : α) :
    List α → Except (List α) (List α)
  | [] => .ok [tmp]
  | z :: rest =>
    match lt? z tmp with
    | none => .error (tmp :: z :: rest)
    | some false => .ok (tmp :: z :: rest)
    | some true =>
      match insert_head_loop lt? tmp rest with
      | .ok m => .ok (z :: m)
      | .error m => .error (z :: m)

/-- Mirrors `insert_head` (`sort/mod.rs`): inserts `v[0]` into the pre-sorted
`v[1..]`.  Slices of length < 2, and the case where `v[1]` is not less than
`v[0]`, change nothing; otherwise `v[0]` is taken out as `tmp` and inserted by
`insert_head_loop`. -/
def insert_head (lt? : α → α → Option Bool) (v : List α) :
    Except (List α) (List α) :=
  match v with
  | x :: y :: rest =>
    match lt? y x with
    | none => .error (x :: y :: rest)
    | some false => .ok (x :: y :: rest)
    | some true =>
      match insert_head_loop lt? x rest with
      | .ok m => .ok (y :: m)
      | .error m => .error (y :: m)
  | _ => .ok v

/-- The slice state recorded in either side of an aborting slice
transformation. -/
def exc_state : Except (List α) (List α) → List α
  | .ok m => m
  | .error m => m

/-- The slice state after `insert_head` whether or not it aborted: call sites
in `merge_sort` discard the returned `Option` (`insert_head(&mut v[i..], …);`
with no `?`), so only the state matters there. -/
def insert_head_state (lt? : α → α → Option Bool) (v : List α) : List α :=
  exc_state (insert_head lt? v)

/-- The insertion-sort fast path of `merge_sort` for `len <= MAX_INSERTION`:
`for i in (0..len - 1).rev() { insert_head(&mut v[i..], &mut is_less); }`,
with each `insert_head` result discarded. -/
def insertion_sort (lt? : α → α → Option Bool) : List α → List α
  | [] => []
  | x :: rest => insert_head_state lt? (x :: insertion_sort lt? rest)

/-- The forward merge inside `merge` (`sort/mod.rs`, branch
`mid <= len - mid`): the left run is buffered; while both sides are nonempty
the right head is consumed iff it is strictly less than the left head
(ties prefer the left run).  If the comparator is undefined the `MergeHole`
drop guard writes the unconsumed buffered run back before the unconsumed
right run, giving the `error` payload. -/
def merge_fwd (lt? : α → α → Option Bool) :
    List α → List α → Except (List α) (List α)
  | [], r => .ok r
  | l, [] => .ok l
  | a :: l', b :: r' =>
    match lt? b a with
    | none => .error (a :: l' ++ b :: r')
    | some true =>
      match merge_fwd lt? (a :: l') r' with
      | .ok m => .ok (b :: m)
      | .error m => .error (b :: m)
    | some false =>
      match merge_fwd lt? l' (b :: r') with
      | .ok m => .ok (a :: m)
      | .error m => .error (a :: m)
termination_by l r => l.length + r.length
decreasing_by all_goals simp +arith [List.length]

/-- The backward merge inside `merge` (branch `mid > len - mid`): the right
run is buffered and output is written back to front.  Arguments are the
reversed unconsumed runs (`revL`, `revR`: the heads are the elements the
source's `left`/`right` pointers would read next) and the already-written
output `acc`.  The last right element is consumed iff it is not strictly less
than the last left element (ties prefer the right run).  On an undefined
comparison the drop guard writes the unconsumed buffered right run between the
unconsumed left run and the output. -/
def merge_bwd_go (lt? : α → α → Option Bool) :
    List α → List α → List α → Except (List α) (List α)
  | [], revR, acc => .ok (revR.reverse ++ acc)
  | revL, [], acc => .ok (revL.reverse ++ acc)
  | a :: l', b :: r', acc =>
    match lt? b a with
    | none => .error ((a :: l').reverse ++ (b :: r').reverse ++ acc)
    | some true => merge_bwd_go lt? l' (b :: r') (a :: acc)
    | some false => merge_bwd_go lt? (a :: l') r' (b :: acc)
termination_by revL revR _ => revL.length + revR.length
decreasing_by all_goals simp +arith [List.length]

/-- Mirrors `merge` (`sort/mod.rs`): merges the adjacent sorted runs `l` and
`r`, buffering the shorter one (`if mid <= len - mid` chooses the forward
walk, otherwise the backward walk). -/
def merge (lt? : α → α → Option Bool) (l r : List α) :
    Except (List α) (List α) :=
  if l.length ≤ r.length then merge_fwd lt? l r
  else merge_bwd_go lt? l.reverse r.reverse []

/-- The slice state after `merge` whether or not it aborted: the call site in
`merge_sort` discards the returned `Option` (`merge(…);` with no `?`). -/
def merge_state (lt? : α → α → Option Bool) (l r : List α) : List α :=
  exc_state (merge lt? l r)

/-- `MAX_INSERTION` from `merge_sort`. -/
def MAX_INSERTION : Nat := 20

/-- `MIN_RUN` from `merge_sort`. -/
def MIN_RUN : Nat := 10

/-- The strictly-descending scan of the run-detection loop in `merge_sort`:
`while start > 0 && is_less(v[start], v[start-1])? { start -= 1 }`.  `cur` is
`v[start]`, the argument list is the still-unscanned part of the slice in
reversed order.  Returns the untouched prefix `v[0..start]` (in slice order)
and the run collected so far in ascending order (the source reverses the
strictly descending run in place afterwards). -/
def find_run_desc (lt? : α → α → Option Bool) :
    α → List α → Except Unit (List α × List α)
  | cur, [] => .ok ([], [cur])
  | cur, y :: q =>
    match lt? cur y with
    | none => .error ()
    | some true =>
      match find_run_desc lt? y q with
      | .ok (rest, run) => .ok (rest, cur :: run)
      | .error e => .error e
    | some false => .ok ((y :: q).reverse, [cur])

/-- The non-descending scan of the run-detection loop in `merge_sort`:
`while start > 0 && !is_less(v[start], v[start-1])? { start -= 1 }`.
Arguments as in `find_run_desc`; the collected run is returned in slice
order. -/
def find_run_asc (lt? : α → α → Option Bool) :
    α → List α → Except Unit (List α × List α)
  | cur, [] => .ok ([], [cur])
  | cur, y :: q =>
    match lt? cur y with
    | none => .error ()
    | some false =>
      match find_run_asc lt? y q with
      | .ok (rest, run) => .ok (rest, run ++ [cur])
      | .error e => .error e
    | some true => .ok ((y :: q).reverse, [cur])

/-- The run-detection step of `merge_sort`: find the maximal natural run at
the right end of the unprocessed prefix `v[0..end]` (`pending`), reversing a
strictly descending run.  Returns `(v[0..start], v[start..end])` after the
possible reversal.  On an undefined comparison nothing has been written yet,
so `merge_sort` aborts with the slice unchanged. -/
def find_run (lt? : α → α → Option Bool) (pending : List α) :
    Except Unit (List α × List α) :=
  match pending.reverse with
  | [] => .ok ([], [])
  | [x] => .ok ([], [x])
  | x0 :: x1 :: q =>
    match lt? x0 x1 with
    | none => .error ()
    | some true =>
      match find_run_desc lt? x1 q with
      | .ok (rest, run) => .ok (rest, x0 :: run)
      | .error e => .error e
    | some false =>
      match find_run_asc lt? x1 q with
      | .ok (rest, run) => .ok (rest, run ++ [x0])
      | .error e => .error e

/-- The `while start > 0 && end - start < MIN_RUN` extension of a too-short
natural run in `merge_sort`: repeatedly move the last element of the
unprocessed prefix into the run via `insert_head` (whose `Option` result the
source discards). -/
def min_run_extend (lt? : α → α → Option Bool) (rest run : List α) :
    List α × List α :=
  if h : 0 < rest.length ∧ run.length < MIN_RUN then
    min_run_extend lt? rest.dropLast
      (insert_head_state lt? (rest.getLast (List.length_pos.mp h.1) :: run))
  else
    (rest, run)
termination_by rest.length
decreasing_by
  simp only [List.length_dropLast]
  omega

/-- Mirrors `collapse` (`sort/mod.rs`): examines the run stack and returns the
position of the next pair to merge, or `none`.  The source's `Vec` indexes
from the bottom of the stack; here the stack is a list with the most recently
pushed run first, so the source's `runs[n-1], runs[n-2], runs[n-3], runs[n-4]`
are `r1, r2, r3, r4` below, `Some(n-2)` (merge `runs[n-2]` with the top) is
`some 0` and `Some(n-3)` is `some 1`.  The source's test `runs[n-1].start == 0`
is `pending_empty`: the top run's start index equals the length of the still
unprocessed prefix. -/
def collapse (pending_empty : Bool) (runs : List (List α)) : Option Nat :=
  match runs with
  | r1 :: r2 :: rest =>
    let violated : Bool :=
      pending_empty || decide (r2.length ≤ r1.length) ||
        (match rest with
         | r3 :: rest2 =>
           decide (r3.length ≤ r2.length + r1.length) ||
             (match rest2 with
              | r4 :: _ => decide (r4.length ≤ r3.length + r2.length)
              | [] => false)
         | [] => false)
    if violated then
      match rest with
      | r3 :: _ => if r3.length < r1.length then some 1 else some 0
      | [] => some 0
    else none
  | _ => none

/-- The `while let Some(r) = collapse(&runs)` loop of `merge_sort`: merge the
pair of adjacent runs chosen by `collapse` (the run closer to the slice start
is the left side), replace the pair by the combined run, repeat.  The `Option`
returned by `merge` is discarded by the source, hence `merge_state`. -/
def collapse_loop (lt? : α → α → Option Bool) (pending_empty : Bool)
    (runs : List (List α)) : List (List α) :=
  match collapse pending_empty runs, runs with
  | some 0, left :: right :: rest =>
    collapse_loop lt? pending_empty (merge_state lt? left right :: rest)
  | some 1, top :: left :: right :: rest =>
    collapse_loop lt? pending_empty (top :: merge_state lt? left right :: rest)
  | _, _ => runs
termination_by runs.length
decreasing_by all_goals simp [List.length_cons]

/-- The `while end > 0` loop of `merge_sort`: detect the next natural run at
the right end of the unprocessed prefix (`pending`), extend it to `MIN_RUN`,
push it onto the stack, collapse.  The stack holds the most recently pushed
(leftmost) run first; the processed part of the slice is `runs.flatten`.  An
undefined comparison during run detection propagates (`?` in the source) with
the slice in its current state; each loop iteration consumes at least one
element of `pending`, so the recursion is paced by a fuel argument that
`merge_sort` seeds with the slice length, which never runs out. -/
def merge_sort_loop (lt? : α → α → Option Bool) :
    Nat → List α → List (List α) → Except (List α) (List α)
  | _, [], runs => .ok runs.flatten
  | 0, pending, runs => .ok (pending ++ runs.flatten)
  | fuel + 1, pending, runs =>
    match find_run lt? pending with
    | .error _ => .error (pending ++ runs.flatten)
    | .ok (rest, run) =>
      let s := min_run_extend lt? rest run
      merge_sort_loop lt? fuel s.1 (collapse_loop lt? s.1.isEmpty (s.2 :: runs))

/-- Mirrors `merge_sort` (`sort/mod.rs`): slices of length at most
`MAX_INSERTION` are insertion sorted (with every `insert_head` result
discarded, so this path always succeeds); longer slices run the
run-detect/push/collapse loop. -/
def merge_sort (lt? : α → α → Option Bool) (v : List α) :
    Except (List α) (List α) :=
  if v.length ≤ MAX_INSERTION then .ok (insertion_sort lt? v)
  else merge_sort_loop lt? v.length v []

/-- Mirrors `TrySort::try_sort_by` for `[T]`:
`from_std::merge_sort(self, compare).ok_or(SortError)`, with the final slice
state returned alongside. -/
def try_sort_by (compare : α → α → Option Bool) (v : List α) :
    Except SortError Unit × List α :=
  match merge_sort compare v with
  | .ok v' => (.ok (), v')
  | .error v' => (.error ⟨⟩, v')

/-- Mirrors `TrySort::try_sort` for `[T]`: `merge_sort` with the comparator
`|a, b| match a.partial_cmp(b) { None => None, Some(Less) => Some(true),
_ => Some(false) }` (the element type's `partial_cmp` is the parameter
`pcmp`). -/
def try_sort (pcmp : α → α → Option Ordering) (v : List α) :
    Except SortError Unit × List α :=
  try_sort_by (fun a b =>
    match pcmp a b with
    | none => none
    | some Ordering.lt => some true
    | some _ => some false) v

/-- Outcome of a Rust call that may panic: `todo!()` unwinds with the message
"not yet implemented" instead of returning through the `Result` type. -/
inductive RustOutcome (ε : Type) : Type where
  | ok : RustOutcome ε
  | err (e : ε) : RustOutcome ε
  | panicked (msg : String) : RustOutcome ε
  deriving DecidableEq

/-- Mirrors `TrySort::try_sort_unstable` for `[T]` (`sort/mod.rs`): the body
is `todo!()`, which panics unconditionally; the borrowed slice is left
unchanged. -/
def try_sort_unstable (_pcmp : α → α → Option Ordering) (v : List α) :
    RustOutcome SortError × List α :=
  (.panicked "not yet implemented", v)

/-- Mirrors `TrySort::try_sort_unstable_by` for `[T]`: `todo!()`. -/
def try_sort_unstable_by (_compare : α → α → Option Bool) (v : List α) :
    RustOutcome SortError × List α :=
  (.panicked "not yet implemented", v)

/-- Mirrors `TrySort::try_sort_unstable_by_key` for `[T]`: `todo!()`. -/
def try_sort_unstable_by_key {κ : Type} (_f : α → Option κ) (v : List α) :
    RustOutcome SortError × List α :=
  (.panicked "not yet implemented", v)

/-! ## Specification-level definitions used by the statements below -/

/-- Adjacent pair `j` of `l` is defined and non-descending under `cmp`. -/
def adj_ok [Inhabited α] (cmp : α → α → Option Ordering) (l : List α)
    (j : Nat) : Prop :=
  ∃ o, cmp (l.getD j default) (l.getD (j + 1) default) = some o ∧ o ≠ Ordering.gt

instance [Inhabited α] (cmp : α → α → Option Ordering) (l : List α) (j : Nat) :
    Decidable (adj_ok cmp l j) := by
  unfold adj_ok; infer_instance

/-- Non-descending order relative to the strict test `f`: each element is
followed only by elements it is not greater than (`f b a = false` reads
"`b < a` is false", i.e. `a ≤ b`). -/
def sorted_le (f : α → α → Bool) (l : List α) : Prop :=
  l.Pairwise (fun a b => f b a = false)

/-- `y` compares Equal to `x` under the strict test `f`: neither is strictly
less than the other. -/
def eqvb (f : α → α → Bool) (x y : α) : Bool :=
  !(f x y) && !(f y x)

/-! ## Theorems.  First the sortedness check, the search, the selection fold
and the defect witnesses; the stable-sort development follows. -/

theorem try_is_sorted_by_short [Inhabited α] (cmp : α → α → Option Ordering)
    (l : List α) (h : l.length ≤ 1) : try_is_sorted_by cmp l = .ok true := by
  match l with
  | [] => rfl
  | [a] => rfl
  | a :: b :: t => simp at h

theorem try_is_sorted_by_all_ok [Inhabited α] (cmp : α → α → Option Ordering)
    (l : List α) (h : ∀ j, j < l.length - 1 → adj_ok cmp l j) :
    try_is_sorted_by cmp l = .ok true := by
  induction l with
  | nil => rfl
  | cons a t ih =>
    match t with
    | [] => rfl
    | b :: t' =>
      obtain ⟨o, ho, hne⟩ := h 0 (by simp)
      simp only [List.getD_cons_zero, List.getD_cons_succ] at ho
      have hrec : try_is_sorted_by cmp (b :: t') = .ok true := by
        apply ih
        intro j hj
        have := h (j + 1) (by simp at hj ⊢; omega)
        simpa [adj_ok, List.getD_cons_succ] using this
      rw [try_is_sorted_by, ho]
      match o, hne with
      | Ordering.lt, _ => exact hrec
      | Ordering.eq, _ => exact hrec

theorem try_is_sorted_by_first_bad [Inhabited α] (cmp : α → α → Option Ordering)
    (l : List α) (k : Nat) (hk : k + 1 < l.length)
    (hpre : ∀ j, j < k → adj_ok cmp l j) :
    (cmp (l.getD k default) (l.getD (k + 1) default) = some Ordering.gt →
      try_is_sorted_by cmp l = .ok false) ∧
    (cmp (l.getD k default) (l.getD (k + 1) default) = none →
      try_is_sorted_by cmp l = .error ⟨⟩) := by
  induction l generalizing k with
  | nil => simp at hk
  | cons a t ih =>
    match t with
    | [] => simp at hk
    | b :: t' =>
      match k with
      | 0 =>
        constructor
        · intro hgt
          simp only [List.getD_cons_zero, List.getD_cons_succ] at hgt
          rw [try_is_sorted_by, hgt]
        · intro hnone
          simp only [List.getD_cons_zero, List.getD_cons_succ] at hnone
          rw [try_is_sorted_by, hnone]
      | k' + 1 =>
        obtain ⟨o, ho, hone⟩ := hpre 0 (Nat.succ_pos _)
        simp only [List.getD_cons_zero, List.getD_cons_succ] at ho
        have hrec := ih k' (by simpa using hk)
          (fun j hj => by
            simpa [adj_ok, List.getD_cons_succ] using hpre (j + 1) (by omega))
        constructor
        · intro hgt
          simp only [List.getD_cons_succ] at hgt
          rw [try_is_sorted_by, ho]
          match o, hone with
          | Ordering.lt, _ => exact hrec.1 hgt
          | Ordering.eq, _ => exact hrec.1 hgt
        · intro hnone
          simp only [List.getD_cons_succ] at hnone
          rw [try_is_sorted_by, ho]
          match o, hone with
          | Ordering.lt, _ => exact hrec.2 hnone
          | Ordering.eq, _ => exact hrec.2 hnone

/-- Claim C9: the sortedness check (modelled from the spec, its source not
being under `src/`) scans adjacent pairs left to right: a sequence of length
at most one yields `Ok true` for every comparator; when every adjacent pair
is defined and non-descending the result is `Ok true`; when the first
non-clean adjacent pair `k` is a defined violation the result is `Ok false`;
when the first non-clean adjacent pair `k` is an undefined comparison the
result is the failure value `Err InvalidOrderError`. -/
theorem c9_try_is_sorted_by_spec [Inhabited α] (cmp : α → α → Option Ordering)
    (l : List α) :
    (l.length ≤ 1 → try_is_sorted_by cmp l = .ok true) ∧
    ((∀ j, j < l.length - 1 → adj_ok cmp l j) → try_is_sorted_by cmp l = .ok true) ∧
    (∀ k, k + 1 < l.length → (∀ j, j < k → adj_ok cmp l j) →
      cmp (l.getD k default) (l.getD (k + 1) default) = some Ordering.gt →
      try_is_sorted_by cmp l = .ok false) ∧
    (∀ k, k + 1 < l.length → (∀ j, j < k → adj_ok cmp l j) →
      cmp (l.getD k default) (l.getD (k + 1) default) = none →
      try_is_sorted_by cmp l = .error ⟨⟩) := by
  refine ⟨try_is_sorted_by_short cmp l, try_is_sorted_by_all_ok cmp l, ?_, ?_⟩
  · intro k hk hpre hgt
    exact (try_is_sorted_by_first_bad cmp l k hk hpre).1 hgt
  · intro k hk hpre hnone
    exact (try_is_sorted_by_first_bad cmp l k hk hpre).2 hnone

/-- Witness for C9 at concrete inputs: the empty sequence is trivially sorted;
`[1, 2, 2]` scans to `Ok true`; in `[1, 3, 2, NaN]` the defined violation at
pair 1 is hit before the NaN, giving `Ok false`; in `[1, NaN, 0]` the
undefined comparison at pair 0 is hit first, giving the failure value. -/
theorem c9_witness :
    (try_is_sorted_by float_cmp ([] : List (Option Int)) = .ok true) ∧
    (try_is_sorted_by float_cmp [some 1, some 2, some 2] = .ok true) ∧
    (try_is_sorted_by float_cmp [some 1, some 3, some 2, none] = .ok false) ∧
    (try_is_sorted_by float_cmp [some 1, none, some 0] = .error ⟨⟩) :=
  ⟨(c9_try_is_sorted_by_spec float_cmp []).1 (by decide),
   (c9_try_is_sorted_by_spec float_cmp [some 1, some 2, some 2]).2.1 (by decide),
   (c9_try_is_sorted_by_spec float_cmp [some 1, some 3, some 2, none]).2.2.1 1
     (by decide) (by decide) (by decide),
   (c9_try_is_sorted_by_spec float_cmp [some 1, none, some 0]).2.2.2 0
     (by decide) (by decide) (by decide)⟩

/-- Claim C3 (evidence of the code bug): on the spec's own scenario
`[3.0, NaN, 1.0]` the comparator is undefined on an occurring pair — the very
first comparison `insert_head` performs, `is_less(v[1], v[0])`, is
`float_cmp NaN 3.0 = None` — yet `try_sort` returns `Ok(())` and leaves the
slice unchanged: the insertion-sort fast path of `merge_sort` discards the
`Option` returned by `insert_head` instead of propagating it with `?`. -/
theorem c3_try_sort_swallows_undefined_comparison :
    float_cmp none (some 3) = none ∧
    try_sort float_cmp [some 3, none, some 1] = (.ok (), [some 3, none, some 1]) :=
  ⟨rfl, by decide⟩

/-- Claim C7 (evidence of the code bug): all three unstable-sort entry points
of `TrySort` are `todo!()` in the source, so on any input — here the
two-element slice `[1.0, 0.0]` — they panic with "not yet implemented"
instead of returning `Ok(())` or `Err(SortError)` through the result type. -/
theorem c7_try_sort_unstable_panics :
    try_sort_unstable float_cmp [some 1, some 0]
      = (.panicked "not yet implemented", [some 1, some 0]) ∧
    try_sort_unstable_by (fun a b => (float_cmp a b).map (· == Ordering.lt))
      [some 1, some 0] = (.panicked "not yet implemented", [some 1, some 0]) ∧
    try_sort_unstable_by_key (fun a : Option Int => a) [some 1, some 0]
      = (.panicked "not yet implemented", [some 1, some 0]) :=
  ⟨rfl, rfl, rfl⟩

/-- Claim C6 counterexample: `[NaN, 2.0]` is an otherwise orderable sequence
containing exactly one incomparable value, yet `try_binary_search` for target
`2.0` probes only index 1, never compares the NaN, and returns `Ok(Ok(1))`,
not the failure value the claim demands. -/
theorem c6_counterexample :
    try_binary_search float_cmp (some 2) [none, some 2] = .ok (.ok 1) ∧
    ∀ e : InvalidOrderError,
      try_binary_search float_cmp (some 2) [none, some 2] ≠ .error e := by
  have h : try_binary_search float_cmp (some 2) [none, some 2] = .ok (.ok 1) := by
    simp [try_binary_search, try_binary_search_by, try_binary_search_by_inner,
      binary_search_loop, float_cmp]
  exact ⟨h, fun e hc => by rw [h] at hc; exact Except.noConfusion hc⟩

/-- Claim C6 (amended): `try_binary_search_by` reports failure exactly when an
undefined comparison occurs at a probed index; in particular, whenever the
first probe (index `len / 2`) is incomparable with the target, the call
returns `Err(InvalidOrderError)`.  An incomparable value at an index the
search never probes does not cause failure. -/
theorem c6_amended_probed_nan_fails [Inhabited α] (cmp : α → Option Ordering)
    (v : List α) (hlen : 0 < v.length)
    (hmid : cmp (v.getD (v.length / 2) default) = none) :
    try_binary_search_by cmp v = .error ⟨⟩ := by
  unfold try_binary_search_by try_binary_search_by_inner
  rw [binary_search_loop]
  simp only [Nat.sub_zero, Nat.zero_add, hlen, if_pos]
  rw [hmid]

/-- Witness for the amended C6: in `[1.0, NaN, 3.0]` the NaN sits exactly at
the first probed index `3 / 2 = 1`, and the search for `2.0` fails. -/
theorem c6_amended_witness :
    0 < ([some 1, none, some 3] : List (Option Int)).length ∧
    (fun a => float_cmp a (some 2))
      (([some 1, none, some 3] : List (Option Int)).getD
        (([some 1, none, some 3] : List (Option Int)).length / 2) default) = none ∧
    try_binary_search_by (fun a => float_cmp a (some 2))
      [some 1, none, some 3] = .error ⟨⟩ :=
  ⟨by decide, by decide,
    c6_amended_probed_nan_fails (fun a => float_cmp a (some 2))
      [some 1, none, some 3] (by decide) (by decide)⟩

/-! ## Claim C5: binary search -/

theorem binary_search_loop_spec [Inhabited α] (cmp : α → Option Ordering)
    (v : List α)
    (hdef : ∀ j, j < v.length → cmp (v.getD j default) ≠ none)
    (hlt : ∀ j, j < v.length → ∀ i, i ≤ j →
      cmp (v.getD j default) = some Ordering.lt →
      cmp (v.getD i default) = some Ordering.lt)
    (hgt : ∀ j, j < v.length → ∀ i, i ≤ j →
      cmp (v.getD i default) = some Ordering.gt →
      cmp (v.getD j default) = some Ordering.gt) :
    ∀ n left right, right - left ≤ n → left ≤ right → right ≤ v.length →
      (∀ j, j < left → cmp (v.getD j default) = some Ordering.lt) →
      (∀ j, right ≤ j → j < v.length → cmp (v.getD j default) = some Ordering.gt) →
      (∃ i, binary_search_loop cmp v left right = some (.ok i) ∧ i < v.length ∧
        cmp (v.getD i default) = some Ordering.eq) ∨
      (∃ i, binary_search_loop cmp v left right = some (.error i) ∧
        i ≤ v.length ∧
        (∀ j, j < i → cmp (v.getD j default) = some Ordering.lt) ∧
        (∀ j, i ≤ j → j < v.length → cmp (v.getD j default) = some Ordering.gt)) := by
  intro n
  induction n with
  | zero =>
    intro left right hn hlr hrv hl hr
    rw [binary_search_loop]
    have hns : ¬ 0 < right - left := by omega
    simp only [hns, if_false]
    exact Or.inr ⟨left, rfl, by omega, hl, fun j hj hjv => hr j (by omega) hjv⟩
  | succ n ih =>
    intro left right hn hlr hrv hl hr
    rw [binary_search_loop]
    by_cases hpos : 0 < right - left
    · simp only [hpos, if_true]
      have hmv : left + (right - left) / 2 < v.length := by omega
      cases hc : cmp (v.getD (left + (right - left) / 2) default) with
      | none => exact absurd hc (hdef _ hmv)
      | some o =>
        cases o with
        | lt =>
          refine ih (left + (right - left) / 2 + 1) right (by omega) (by omega)
            hrv ?_ hr
          intro j hj
          exact hlt _ hmv j (by omega) hc
        | gt =>
          refine ih left (left + (right - left) / 2) (by omega) (by omega)
            (by omega) hl ?_
          intro j hj hjv
          exact hgt j hjv _ hj hc
        | eq => exact Or.inl ⟨_, rfl, hmv, hc⟩
    · simp only [hpos, if_false]
      exact Or.inr ⟨left, rfl, by omega, hl, fun j hj hjv => hr j (by omega) hjv⟩

/-- Claim C5: on a slice sorted ascending relative to the target comparator
(`lt` results are downward closed, `gt` results upward closed) whose elements
all compare defined, `try_binary_search_by` returns `Ok(Ok i)` with the
element at `i` comparing `Equal`, or `Ok(Err i)` with every element before `i`
comparing `Less` and every element at or after `i` comparing
Greater-or-Equal; on the empty slice it returns `Ok(Err 0)`. -/
theorem c5_binary_search_correct [Inhabited α] (cmp : α → Option Ordering)
    (v : List α)
    (hdef : ∀ j, j < v.length → cmp (v.getD j default) ≠ none)
    (hlt : ∀ j, j < v.length → ∀ i, i ≤ j →
      cmp (v.getD j default) = some Ordering.lt →
      cmp (v.getD i default) = some Ordering.lt)
    (hgt : ∀ j, j < v.length → ∀ i, i ≤ j →
      cmp (v.getD i default) = some Ordering.gt →
      cmp (v.getD j default) = some Ordering.gt) :
    (v = [] → try_binary_search_by cmp v = .ok (.error 0)) ∧
    ((∃ i, try_binary_search_by cmp v = .ok (.ok i) ∧ i < v.length ∧
        cmp (v.getD i default) = some Ordering.eq) ∨
     (∃ i, try_binary_search_by cmp v = .ok (.error i) ∧ i ≤ v.length ∧
        (∀ j, j < i → cmp (v.getD j default) = some Ordering.lt) ∧
        (∀ j, i ≤ j → j < v.length →
          cmp (v.getD j default) = some Ordering.gt ∨
          cmp (v.getD j default) = some Ordering.eq))) := by
  have hloop := binary_search_loop_spec cmp v hdef hlt hgt v.length 0 v.length
    (by omega) (by omega) (by omega) (by omega) (by omega)
  constructor
  · intro hv
    subst hv
    unfold try_binary_search_by try_binary_search_by_inner
    rw [binary_search_loop]
    simp
  · unfold try_binary_search_by try_binary_search_by_inner
    rcases hloop with ⟨i, hres, hiv, heq⟩ | ⟨i, hres, hiv, hbefore, hafter⟩
    · rw [hres]
      exact Or.inl ⟨i, rfl, hiv, heq⟩
    · rw [hres]
      exact Or.inr ⟨i, rfl, hiv, hbefore,
        fun j hij hjv => Or.inl (hafter j hij hjv)⟩

/-- Witness for C5: the spec's own scenario, the sorted slice
`[1.0, 3.0, 5.0]` searched for target `3.0` (found at index 1). -/
theorem c5_witness :
    (∀ j, j < ([some 1, some 3, some 5] : List (Option Int)).length →
      (fun a => float_cmp a (some 3))
        (([some 1, some 3, some 5] : List (Option Int)).getD j default) ≠ none) ∧
    ((∃ i, try_binary_search_by (fun a => float_cmp a (some 3))
          ([some 1, some 3, some 5] : List (Option Int)) = .ok (.ok i) ∧
        i < ([some 1, some 3, some 5] : List (Option Int)).length ∧
        (fun a => float_cmp a (some 3))
          (([some 1, some 3, some 5] : List (Option Int)).getD i default)
          = some Ordering.eq) ∨
     (∃ i, try_binary_search_by (fun a => float_cmp a (some 3))
          ([some 1, some 3, some 5] : List (Option Int)) = .ok (.error i) ∧
        i ≤ ([some 1, some 3, some 5] : List (Option Int)).length ∧
        (∀ j, j < i → (fun a => float_cmp a (some 3))
          (([some 1, some 3, some 5] : List (Option Int)).getD j default)
          = some Ordering.lt) ∧
        (∀ j, i ≤ j → j < ([some 1, some 3, some 5] : List (Option Int)).length →
          (fun a => float_cmp a (some 3))
            (([some 1, some 3, some 5] : List (Option Int)).getD j default)
            = some Ordering.gt ∨
          (fun a => float_cmp a (some 3))
            (([some 1, some 3, some 5] : List (Option Int)).getD j default)
            = some Ordering.eq))) :=
  ⟨by decide,
    (c5_binary_search_correct (fun a => float_cmp a (some 3))
      [some 1, some 3, some 5] (by decide) (by decide) (by decide)).2⟩

/-! ## Claims C8 and C10: the selection fold -/

theorem try_select_by_go_spec (cmp : α → α → Option Ordering) (t : Ordering)
    (f : α → α → Ordering) (l : List α)
    (hdef : ∀ x ∈ l, ∀ y ∈ l, cmp x y = some (f x y))
    (hasym : ∀ x ∈ l, ∀ y ∈ l, f x y = t → f y x ≠ t)
    (htrans : ∀ x ∈ l, ∀ y ∈ l, ∀ z ∈ l, f x y = t → f y z = t → f x z = t)
    (hmix : ∀ x ∈ l, ∀ y ∈ l, ∀ z ∈ l, f x y ≠ t → f x z = t → f y z = t) :
    ∀ rem b pre mid, l = pre ++ b :: mid ++ rem →
      (∀ x ∈ pre, f x b = t) →
      (∀ x ∈ pre ++ b :: mid, f b x ≠ t) →
      ∃ c pre2 post2,
        try_select_by_go cmp t (some b) rem = .ok (some c) ∧
        l = pre2 ++ c :: post2 ∧ (∀ x ∈ pre2, f x c = t) ∧
        (∀ x ∈ l, f c x ≠ t) := by
  intro rem
  induction rem with
  | nil =>
    intro b pre mid hl hpre hmin
    refine ⟨b, pre, mid, rfl, by simpa using hl, hpre, ?_⟩
    intro x hx
    refine hmin x ?_
    rw [hl] at hx
    simpa using hx
  | cons nb rem' ih =>
    intro b pre mid hl hpre hmin
    have hbl : b ∈ l := by rw [hl]; simp
    have hnl : nb ∈ l := by rw [hl]; simp
    have hpl : ∀ x ∈ pre, x ∈ l := fun x hx => by rw [hl]; simp [hx]
    have hml : ∀ x ∈ mid, x ∈ l := fun x hx => by rw [hl]; simp [hx]
    have hcmp : cmp b nb = some (f b nb) := hdef b hbl nb hnl
    rw [try_select_by_go, hcmp]
    by_cases hrepl : f b nb = t
    · simp only [hrepl, if_pos]
      refine ih nb (pre ++ b :: mid) [] (by rw [hl]; simp) ?_ ?_
      · intro x hx
        rcases List.mem_append.mp hx with hx | hx
        · exact htrans x (hpl x hx) b hbl nb hnl (hpre x hx) hrepl
        · rcases List.mem_cons.mp hx with rfl | hx
          · exact hrepl
          · exact hmix b hbl x (hml x hx) nb hnl (hmin x (by simp [hx])) hrepl
      · intro x hx hfx
        rcases List.mem_append.mp hx with hx | hx
        · exact hmin x hx (htrans b hbl nb hnl x
            (by rcases List.mem_append.mp hx with hx | hx
                · exact hpl x hx
                · rcases List.mem_cons.mp hx with rfl | hx
                  · exact hbl
                  · exact hml x hx) hrepl hfx)
        · rcases List.mem_cons.mp hx with heq | hx
          · subst heq
            exact hasym x hnl x hnl hfx hfx
          · simp at hx
    · simp only [if_neg hrepl]
      refine ih b pre (mid ++ [nb]) (by rw [hl]; simp) hpre ?_
      intro x hx
      rcases List.mem_append.mp hx with hx | hx
      · exact hmin x (by simp [hx])
      · rcases List.mem_cons.mp hx with rfl | hx
        · exact hmin x (by simp)
        · rcases List.mem_append.mp hx with hx | hx
          · exact hmin x (by simp [hx])
          · rcases List.mem_singleton.mp hx with rfl
            exact hrepl

theorem try_select_by_first_extremum (cmp : α → α → Option Ordering)
    (t : Ordering) (f : α → α → Ordering) (l : List α) (hne : l ≠ [])
    (hdef : ∀ x ∈ l, ∀ y ∈ l, cmp x y = some (f x y))
    (hasym : ∀ x ∈ l, ∀ y ∈ l, f x y = t → f y x ≠ t)
    (htrans : ∀ x ∈ l, ∀ y ∈ l, ∀ z ∈ l, f x y = t → f y z = t → f x z = t)
    (hmix : ∀ x ∈ l, ∀ y ∈ l, ∀ z ∈ l, f x y ≠ t → f x z = t → f y z = t) :
    ∃ c pre post, try_select_by cmp t l = .ok (some c) ∧
      l = pre ++ c :: post ∧ (∀ x ∈ pre, f x c = t) ∧
      (∀ x ∈ l, f c x ≠ t) := by
  match l, hne with
  | x :: rem, _ =>
    have hxl : x ∈ x :: rem := by simp
    have hspec := try_select_by_go_spec cmp t f (x :: rem) hdef hasym htrans hmix
      rem x [] [] (by simp) (by simp)
      (by
        intro y hy hfy
        rcases List.mem_cons.mp hy with rfl | hy
        · exact hasym y hxl y hxl hfy hfy
        · simp at hy)
    unfold try_select_by
    rw [try_select_by_go]
    exact hspec

/-- Claim C8: when the comparator is defined and consistent (asymmetric,
transitive, with the mixed transitivity of a total preorder) on the occurring
values, `try_min_by` returns the first element of the iteration order among
all minimal elements: the result `c` splits the input as `pre ++ c :: post`
where every earlier element is strictly greater than `c` and no element is
strictly below `c` — in particular a candidate comparing Equal (or Less,
i.e. not Greater) to the current best never replaces it, so the later of two
equal elements is never picked. -/
theorem c8_try_min_by_first_minimal (cmp : α → α → Option Ordering)
    (f : α → α → Ordering) (l : List α) (hne : l ≠ [])
    (hdef : ∀ x ∈ l, ∀ y ∈ l, cmp x y = some (f x y))
    (hasym : ∀ x ∈ l, ∀ y ∈ l, f x y = Ordering.gt → f y x ≠ Ordering.gt)
    (htrans : ∀ x ∈ l, ∀ y ∈ l, ∀ z ∈ l,
      f x y = Ordering.gt → f y z = Ordering.gt → f x z = Ordering.gt)
    (hmix : ∀ x ∈ l, ∀ y ∈ l, ∀ z ∈ l,
      f x y ≠ Ordering.gt → f x z = Ordering.gt → f y z = Ordering.gt) :
    ∃ c pre post, try_min_by cmp l = .ok (some c) ∧ l = pre ++ c :: post ∧
      (∀ x ∈ pre, f x c = Ordering.gt) ∧ (∀ x ∈ l, f c x ≠ Ordering.gt) :=
  try_select_by_first_extremum cmp Ordering.gt f l hne hdef hasym htrans hmix

/-- Witness for C8: in `[2.0, 1.0, 1.0, 3.0]` the two occurrences of `1.0`
compare equal and `try_min` keeps the first-seen one: the result splits the
list with `pre = [2.0]`, every element of which is strictly greater. -/
theorem c8_witness :
    (([some 2, some 1, some 1, some 3] : List (Option Int)) ≠ []) ∧
    ∃ c pre post,
      try_min_by float_cmp [some 2, some 1, some 1, some 3] = .ok (some c) ∧
      ([some 2, some 1, some 1, some 3] : List (Option Int))
        = pre ++ c :: post ∧
      (∀ x ∈ pre, float_ord x c = Ordering.gt) ∧
      (∀ x ∈ ([some 2, some 1, some 1, some 3] : List (Option Int)),
        float_ord c x ≠ Ordering.gt) :=
  ⟨by decide,
    c8_try_min_by_first_minimal float_cmp float_ord
      [some 2, some 1, some 1, some 3] (by decide) (by decide) (by decide)
      (by decide) (by decide)⟩

/-- Claim C10: `try_max_by` has the same first-seen tie-breaking the spec
documents only for the minimum: with a defined, consistent comparator the
result is the first element of the iteration order among all maximal
elements — the result `c` splits the input as `pre ++ c :: post` with every
earlier element strictly less than `c` and no element strictly above `c`, so
a candidate comparing Equal to the current best never replaces it. -/
theorem c10_try_max_by_first_maximal (cmp : α → α → Option Ordering)
    (f : α → α → Ordering) (l : List α) (hne : l ≠ [])
    (hdef : ∀ x ∈ l, ∀ y ∈ l, cmp x y = some (f x y))
    (hasym : ∀ x ∈ l, ∀ y ∈ l, f x y = Ordering.lt → f y x ≠ Ordering.lt)
    (htrans : ∀ x ∈ l, ∀ y ∈ l, ∀ z ∈ l,
      f x y = Ordering.lt → f y z = Ordering.lt → f x z = Ordering.lt)
    (hmix : ∀ x ∈ l, ∀ y ∈ l, ∀ z ∈ l,
      f x y ≠ Ordering.lt → f x z = Ordering.lt → f y z = Ordering.lt) :
    ∃ c pre post, try_max_by cmp l = .ok (some c) ∧ l = pre ++ c :: post ∧
      (∀ x ∈ pre, f x c = Ordering.lt) ∧ (∀ x ∈ l, f c x ≠ Ordering.lt) :=
  try_select_by_first_extremum cmp Ordering.lt f l hne hdef hasym htrans hmix

/-- Witness for C10: in `[2.0, 3.0, 1.0, 3.0]` the two occurrences of `3.0`
compare equal and `try_max` keeps the first-seen one (index 1): the result
splits the list with `pre = [2.0]`, every element of which is strictly
less. -/
theorem c10_witness :
    (([some 2, some 3, some 1, some 3] : List (Option Int)) ≠ []) ∧
    ∃ c pre post,
      try_max_by float_cmp [some 2, some 3, some 1, some 3] = .ok (some c) ∧
      ([some 2, some 3, some 1, some 3] : List (Option Int))
        = pre ++ c :: post ∧
      (∀ x ∈ pre, float_ord x c = Ordering.lt) ∧
      (∀ x ∈ ([some 2, some 3, some 1, some 3] : List (Option Int)),
        float_ord c x ≠ Ordering.lt) :=
  ⟨by decide,
    c10_try_max_by_first_maximal float_cmp float_ord
      [some 2, some 3, some 1, some 3] (by decide) (by decide) (by decide)
      (by decide) (by decide)⟩

/-! ## Claims C1, C2, C4: the stable merge sort

Throughout, `f` is the total strict order the fallible comparator `lt?`
implements on the values satisfying `P` (the values occurring in the slice
being sorted): `hdef` says `lt?` is defined there and decided by `f`,
`hasym` that `f` is asymmetric, `hneg` that it is negatively transitive —
together: a strict weak order, the consistency the spec demands of the
caller's comparator. -/

section sort_correctness

variable {lt? : α → α → Option Bool} {f : α → α → Bool} {P : α → Prop}

theorem f_le_trans (hneg : ∀ x y z, P x → P y → P z → f x z = true →
      f x y = true ∨ f y z = true)
    {x y z : α} (hx : P x) (hy : P y) (hz : P z)
    (h1 : f y x = false) (h2 : f z y = false) : f z x = false := by
  by_contra h
  rcases hneg z y x hz hy hx (by revert h; cases f z x <;> simp) with h' | h'
  · rw [h2] at h'; cases h'
  · rw [h1] at h'; cases h'

theorem f_lt_trans (hasym : ∀ x y, P x → P y → f x y = true → f y x = false)
    (hneg : ∀ x y z, P x → P y → P z → f x z = true →
      f x y = true ∨ f y z = true)
    {x y z : α} (hx : P x) (hy : P y) (hz : P z)
    (h1 : f x y = true) (h2 : f y z = true) : f x z = true := by
  rcases hneg x z y hx hz hy h1 with h' | h'
  · exact h'
  · rw [hasym y z hy hz h2] at h'; cases h'

theorem eqv_no_strict
    (hneg : ∀ x y z, P x → P y → P z → f x z = true →
      f x y = true ∨ f y z = true)
    {a b x : α} (ha : P a) (hb : P b) (hx : P x)
    (hea : eqvb f x a = true) (heb : eqvb f x b = true) : f a b = false := by
  by_contra h
  have h' : f a b = true := by revert h; cases f a b <;> simp
  simp only [eqvb, Bool.and_eq_true, Bool.not_eq_true'] at hea heb
  rcases hneg a x b ha hx hb h' with h'' | h''
  · rw [hea.2] at h''; cases h''
  · rw [heb.1] at h''; cases h''

theorem chain_le_sorted
    (hdef : ∀ x y, P x → P y → lt? x y = some (f x y))
    (hneg : ∀ x y z, P x → P y → P z → f x z = true →
      f x y = true ∨ f y z = true) :
    ∀ l : List α, (∀ x ∈ l, P x) →
      List.Chain' (fun a b => lt? b a = some false) l → sorted_le f l
  | [], _, _ => List.Pairwise.nil
  | [a], _, _ => by simp [sorted_le]
  | a :: b :: t, hP, hch => by
    have hch' := (List.chain'_cons.mp hch)
    have ih := chain_le_sorted hdef hneg (b :: t)
      (fun x hx => hP x (by simp [hx])) hch'.2
    have h1 := hch'.1
    rw [hdef b a (hP b (by simp)) (hP a (by simp))] at h1
    injection h1 with h1
    refine List.Pairwise.cons ?_ ih
    intro z hz
    rcases List.mem_cons.mp hz with rfl | hz
    · exact h1
    · have hzb : f z b = false := List.rel_of_pairwise_cons ih hz
      exact f_le_trans hneg (hP a (by simp)) (hP b (by simp))
        (hP z (by simp [hz])) h1 hzb

theorem chain_lt_pairwise
    (hdef : ∀ x y, P x → P y → lt? x y = some (f x y))
    (hasym : ∀ x y, P x → P y → f x y = true → f y x = false)
    (hneg : ∀ x y z, P x → P y → P z → f x z = true →
      f x y = true ∨ f y z = true) :
    ∀ l : List α, (∀ x ∈ l, P x) →
      List.Chain' (fun a b => lt? a b = some true) l →
      l.Pairwise (fun a b => f a b = true)
  | [], _, _ => List.Pairwise.nil
  | [a], _, _ => by simp
  | a :: b :: t, hP, hch => by
    have hch' := (List.chain'_cons.mp hch)
    have ih := chain_lt_pairwise hdef hasym hneg (b :: t)
      (fun x hx => hP x (by simp [hx])) hch'.2
    have h1 := hch'.1
    rw [hdef a b (hP a (by simp)) (hP b (by simp))] at h1
    injection h1 with h1
    refine List.Pairwise.cons ?_ ih
    intro z hz
    rcases List.mem_cons.mp hz with rfl | hz
    · exact h1
    · have hbz : f b z = true := List.rel_of_pairwise_cons ih hz
      exact f_lt_trans hasym hneg (hP a (by simp)) (hP b (by simp))
        (hP z (by simp [hz])) h1 hbz

theorem pairwise_strict_sorted
    (hasym : ∀ x y, P x → P y → f x y = true → f y x = false)
    (l : List α) (hP : ∀ x ∈ l, P x)
    (hpw : l.Pairwise (fun a b => f a b = true)) : sorted_le f l := by
  refine hpw.imp_of_mem ?_
  intro a b ha hb hab
  exact hasym a b (hP a ha) (hP b hb) hab

theorem filter_reverse_eqv
    (hneg : ∀ x y z, P x → P y → P z → f x z = true →
      f x y = true ∨ f y z = true)
    (l : List α) (hP : ∀ x ∈ l, P x)
    (hpw : l.Pairwise (fun a b => f a b = true)) (x : α) (hx : P x) :
    l.reverse.filter (eqvb f x) = l.filter (eqvb f x) := by
  rw [List.filter_reverse]
  have hpwf : (l.filter (eqvb f x)).Pairwise (fun a b => f a b = true) :=
    hpw.sublist (List.filter_sublist l)
  match hfl : l.filter (eqvb f x) with
  | [] => rfl
  | [a] => rfl
  | a :: b :: t =>
    exfalso
    have ha : a ∈ l.filter (eqvb f x) := by rw [hfl]; simp
    have hb : b ∈ l.filter (eqvb f x) := by rw [hfl]; simp
    have hea := List.of_mem_filter ha
    have heb := List.of_mem_filter hb
    have hal := List.mem_of_mem_filter ha
    have hbl := List.mem_of_mem_filter hb
    have hab : f a b = true := by
      rw [hfl] at hpwf
      exact List.rel_of_pairwise_cons hpwf (by simp)
    rw [eqv_no_strict hneg (hP a hal) (hP b hbl) hx hea heb] at hab
    cases hab

theorem insert_head_loop_structure (lt? : α → α → Option Bool) (tmp : α) :
    ∀ l : List α, ∃ pre post, l = pre ++ post ∧
      (∀ z ∈ pre, lt? z tmp = some true) ∧
      exc_state (insert_head_loop lt? tmp l) = pre ++ tmp :: post ∧
      ((∃ m, insert_head_loop lt? tmp l = .ok m) →
        post = [] ∨ ∃ h t, post = h :: t ∧ lt? h tmp = some false) ∧
      ((∃ m, insert_head_loop lt? tmp l = .error m) →
        ∃ h t, post = h :: t ∧ lt? h tmp = none)
  | [] => by
    refine ⟨[], [], rfl, by simp, rfl, fun _ => Or.inl rfl, ?_⟩
    rintro ⟨m, hm⟩
    rw [insert_head_loop] at hm
    cases hm
  | z :: rest => by
    cases hc : lt? z tmp with
    | none =>
      refine ⟨[], z :: rest, rfl, by simp, ?_, ?_, ?_⟩
      · rw [insert_head_loop, hc]; rfl
      · rintro ⟨m, hm⟩
        rw [insert_head_loop, hc] at hm
        cases hm
      · exact fun _ => ⟨z, rest, rfl, hc⟩
    | some b =>
      cases b with
      | false =>
        refine ⟨[], z :: rest, rfl, by simp, ?_, ?_, ?_⟩
        · rw [insert_head_loop, hc]; rfl
        · exact fun _ => Or.inr ⟨z, rest, rfl, hc⟩
        · rintro ⟨m, hm⟩
          rw [insert_head_loop, hc] at hm
          cases hm
      | true =>
        obtain ⟨pre, post, heq, hpre, hstate, hok, herr⟩ :=
          insert_head_loop_structure lt? tmp rest
        refine ⟨z :: pre, post, by rw [heq]; rfl, ?_, ?_, ?_, ?_⟩
        · intro w hw
          rcases List.mem_cons.mp hw with rfl | hw
          · exact hc
          · exact hpre w hw
        · rw [insert_head_loop, hc]
          cases hrec : insert_head_loop lt? tmp rest with
          | ok m =>
            rw [hrec] at hstate
            simpa [exc_state] using hstate
          | error m =>
            rw [hrec] at hstate
            simpa [exc_state] using hstate
        · rintro ⟨m, hm⟩
          rw [insert_head_loop, hc] at hm
          cases hrec : insert_head_loop lt? tmp rest with
          | ok m' => exact hok ⟨m', hrec⟩
          | error m' => rw [hrec] at hm; cases hm
        · rintro ⟨m, hm⟩
          rw [insert_head_loop, hc] at hm
          cases hrec : insert_head_loop lt? tmp rest with
          | ok m' => rw [hrec] at hm; cases hm
          | error m' => exact herr ⟨m', hrec⟩

theorem insert_head_loop_state_perm (lt? : α → α → Option Bool) (tmp : α)
    (l : List α) : (exc_state (insert_head_loop lt? tmp l)).Perm (tmp :: l) := by
  obtain ⟨pre, post, heq, -, hstate, -, -⟩ := insert_head_loop_structure lt? tmp l
  rw [hstate, heq]
  exact List.perm_middle

theorem insert_head_state_perm (lt? : α → α → Option Bool) (v : List α) :
    (insert_head_state lt? v).Perm v := by
  match v with
  | [] => rfl
  | [a] => rfl
  | a :: b :: t =>
    simp only [insert_head_state, insert_head]
    cases hc : lt? b a with
    | none => exact List.Perm.refl _
    | some c =>
      cases c with
      | false => exact List.Perm.refl _
      | true =>
        have hl := insert_head_loop_state_perm lt? a t
        cases hrec : insert_head_loop lt? a t with
        | ok m =>
          rw [hrec] at hl
          simp only [exc_state] at hl ⊢
          exact (hl.cons b).trans (List.Perm.swap a b t)
        | error m =>
          rw [hrec] at hl
          simp only [exc_state] at hl ⊢
          exact (hl.cons b).trans (List.Perm.swap a b t)

theorem insert_head_loop_sorted
    (hdef : ∀ x y, P x → P y → lt? x y = some (f x y))
    (hasym : ∀ x y, P x → P y → f x y = true → f y x = false)
    (hneg : ∀ x y z, P x → P y → P z → f x z = true →
      f x y = true ∨ f y z = true) :
    ∀ (tmp : α) (l : List α), P tmp → (∀ x ∈ l, P x) → sorted_le f l →
      ∃ m, insert_head_loop lt? tmp l = .ok m ∧ sorted_le f m ∧
        m.Perm (tmp :: l)
  | tmp, [], htmp, _, _ => ⟨[tmp], rfl, by simp [sorted_le], List.Perm.refl _⟩
  | tmp, z :: rest, htmp, hP, hsorted => by
    have hz : P z := hP z (by simp)
    have hc : lt? z tmp = some (f z tmp) := hdef z tmp hz htmp
    rw [insert_head_loop, hc]
    cases hzt : f z tmp with
    | false =>
      refine ⟨tmp :: z :: rest, rfl, ?_, List.Perm.refl _⟩
      refine List.Pairwise.cons ?_ hsorted
      intro w hw
      rcases List.mem_cons.mp hw with rfl | hw
      · exact hzt
      · exact f_le_trans hneg htmp hz (hP w (by simp [hw])) hzt
          (List.rel_of_pairwise_cons hsorted hw)
    | true =>
      obtain ⟨m, hm, hms, hmp⟩ := insert_head_loop_sorted hdef hasym hneg tmp
        rest htmp (fun x hx => hP x (by simp [hx]))
        (List.Pairwise.of_cons hsorted)
      rw [hm]
      refine ⟨z :: m, rfl, ?_, ?_⟩
      · refine List.Pairwise.cons ?_ hms
        intro w hw
        rcases List.mem_cons.mp (hmp.subset hw) with rfl | hw'
        · exact hasym z w hz htmp hzt
        · exact List.rel_of_pairwise_cons hsorted hw'
      · exact (hmp.cons z).trans (List.Perm.swap tmp z rest)

theorem insert_head_sorted
    (hdef : ∀ x y, P x → P y → lt? x y = some (f x y))
    (hasym : ∀ x y, P x → P y → f x y = true → f y x = false)
    (hneg : ∀ x y z, P x → P y → P z → f x z = true →
      f x y = true ∨ f y z = true)
    (v : List α) (hP : ∀ x ∈ v, P x) (hsorted : sorted_le f v.tail) :
    ∃ m, insert_head lt? v = .ok m ∧ sorted_le f m ∧ m.Perm v := by
  match v with
  | [] => exact ⟨[], rfl, List.Pairwise.nil, List.Perm.refl _⟩
  | [a] => exact ⟨[a], rfl, by simp [sorted_le], List.Perm.refl _⟩
  | a :: b :: t =>
    have ha : P a := hP a (by simp)
    have hb : P b := hP b (by simp)
    have hc : lt? b a = some (f b a) := hdef b a hb ha
    rw [insert_head, hc]
    cases hba : f b a with
    | false =>
      refine ⟨a :: b :: t, rfl, ?_, List.Perm.refl _⟩
      refine List.Pairwise.cons ?_ hsorted
      intro w hw
      rcases List.mem_cons.mp hw with rfl | hw
      · exact hba
      · exact f_le_trans hneg ha hb (hP w (by simp [hw])) hba
          (List.rel_of_pairwise_cons hsorted hw)
    | true =>
      obtain ⟨m, hm, hms, hmp⟩ := insert_head_loop_sorted hdef hasym hneg a t
        ha (fun x hx => hP x (by simp [hx]))
        (List.Pairwise.of_cons hsorted)
      rw [hm]
      refine ⟨b :: m, rfl, ?_, ?_⟩
      · refine List.Pairwise.cons ?_ hms
        intro w hw
        rcases List.mem_cons.mp (hmp.subset hw) with rfl | hw'
        · exact hasym b w hb ha hba
        · exact List.rel_of_pairwise_cons hsorted hw'
      · exact (hmp.cons b).trans (List.Perm.swap a b t)

theorem filter_shift_eqv
    (hneg : ∀ x y z, P x → P y → P z → f x z = true →
      f x y = true ∨ f y z = true)
    {a x : α} (ha : P a) (hx : P x) (pre post : List α)
    (hP : ∀ z ∈ pre, P z) (hpre : ∀ z ∈ pre, f z a = true) :
    (pre ++ a :: post).filter (eqvb f x)
      = (a :: (pre ++ post)).filter (eqvb f x) := by
  by_cases hca : eqvb f x a = true
  · have hnone : pre.filter (eqvb f x) = [] := by
      rw [List.filter_eq_nil_iff]
      intro z hz hcz
      have := eqv_no_strict hneg (hP z hz) ha hx hcz hca
      rw [hpre z hz] at this
      cases this
    rw [List.filter_append, hnone, List.filter_cons, if_pos hca,
      List.filter_cons, if_pos hca, List.filter_append, hnone]
    simp
  · rw [List.filter_append, List.filter_cons, if_neg hca,
      List.filter_cons, if_neg hca, List.filter_append]

theorem insert_head_state_filter
    (hdef : ∀ x y, P x → P y → lt? x y = some (f x y))
    (hneg : ∀ x y z, P x → P y → P z → f x z = true →
      f x y = true ∨ f y z = true)
    (v : List α) (hP : ∀ x ∈ v, P x) (x : α) (hx : P x) :
    (insert_head_state lt? v).filter (eqvb f x) = v.filter (eqvb f x) := by
  match v with
  | [] => rfl
  | [a] => rfl
  | a :: b :: t =>
    have ha : P a := hP a (by simp)
    have hb : P b := hP b (by simp)
    simp only [insert_head_state, insert_head]
    cases hc : lt? b a with
    | none => rfl
    | some c =>
      cases c with
      | false => rfl
      | true =>
        have hba : f b a = true := by
          have := hdef b a hb ha
          rw [hc] at this
          exact (Option.some.injEq _ _ ▸ this.symm)
        obtain ⟨pre, post, heq, hpre, hstate, -, -⟩ :=
          insert_head_loop_structure lt? a t
        have hstate' : exc_state
            (match insert_head_loop lt? a t with
              | .ok m => Except.ok (b :: m)
              | .error m => Except.error (b :: m)) = b :: (pre ++ a :: post) := by
          cases hrec : insert_head_loop lt? a t with
          | ok m => rw [hrec] at hstate; simpa [exc_state] using hstate
          | error m => rw [hrec] at hstate; simpa [exc_state] using hstate
        rw [hstate']
        have hPpre : ∀ z ∈ pre, P z := fun z hz =>
          hP z (by simp [heq, List.mem_append, hz])
        have hfpre : ∀ z ∈ pre, f z a = true := by
          intro z hz
          have h1 := hpre z hz
          have h2 := hdef z a (hPpre z hz) ha
          rw [h1] at h2
          exact (Option.some.injEq _ _ ▸ h2.symm)
        rw [heq]
        have hnone : eqvb f x a = true → pre.filter (eqvb f x) = [] := by
          intro hca
          rw [List.filter_eq_nil_iff]
          intro z hz hcz
          have := eqv_no_strict hneg (hPpre z hz) ha hx hcz hca
          rw [hfpre z hz] at this
          cases this
        by_cases hca : eqvb f x a = true
        · have hcb : ¬ eqvb f x b = true := by
            intro hcb
            have := eqv_no_strict hneg hb ha hx hcb hca
            rw [hba] at this
            cases this
          simp [List.filter_cons, List.filter_append, hca, hcb, hnone hca]
        · simp [List.filter_cons, List.filter_append, hca]

theorem insertion_sort_perm (lt? : α → α → Option Bool) :
    ∀ v : List α, (insertion_sort lt? v).Perm v
  | [] => List.Perm.refl _
  | x :: rest => by
    rw [insertion_sort]
    exact (insert_head_state_perm lt? _).trans
      ((insertion_sort_perm lt? rest).cons x)

theorem insertion_sort_spec
    (hdef : ∀ x y, P x → P y → lt? x y = some (f x y))
    (hasym : ∀ x y, P x → P y → f x y = true → f y x = false)
    (hneg : ∀ x y z, P x → P y → P z → f x z = true →
      f x y = true ∨ f y z = true) :
    ∀ v : List α, (∀ x ∈ v, P x) →
      sorted_le f (insertion_sort lt? v) ∧
      ∀ x, P x → (insertion_sort lt? v).filter (eqvb f x)
        = v.filter (eqvb f x)
  | [], _ => ⟨List.Pairwise.nil, fun _ _ => rfl⟩
  | y :: rest, hP => by
    have hPrest : ∀ x ∈ rest, P x := fun x hx => hP x (by simp [hx])
    obtain ⟨ihs, ihf⟩ := insertion_sort_spec hdef hasym hneg rest hPrest
    have hPmid : ∀ x ∈ y :: insertion_sort lt? rest, P x := by
      intro x hx
      rcases List.mem_cons.mp hx with rfl | hx
      · exact hP x (by simp)
      · exact hPrest x ((insertion_sort_perm lt? rest).subset hx)
    rw [insertion_sort]
    constructor
    · obtain ⟨m, hm, hms, -⟩ := insert_head_sorted hdef hasym hneg
        (y :: insertion_sort lt? rest) hPmid ihs
      unfold insert_head_state
      rw [hm]
      exact hms
    · intro x hx
      rw [insert_head_state_filter hdef hneg _ hPmid x hx]
      simp only [List.filter_cons, ihf x hx]

theorem merge_fwd_state_perm (lt? : α → α → Option Bool) :
    ∀ l r : List α, (exc_state (merge_fwd lt? l r)).Perm (l ++ r) := by
  intro l
  induction l with
  | nil =>
    intro r
    simp [merge_fwd, exc_state]
  | cons a l' ihl =>
    intro r
    induction r with
    | nil => simp [merge_fwd, exc_state]
    | cons b r' ihr =>
      cases hc : lt? b a with
      | none =>
        simp [merge_fwd, hc, exc_state]
      | some c =>
        cases c with
        | true =>
          simp only [merge_fwd, hc]
          cases hrec : merge_fwd lt? (a :: l') r' with
          | ok m =>
            rw [hrec] at ihr
            simp only [exc_state] at ihr ⊢
            exact (ihr.cons b).trans List.perm_middle.symm
          | error m =>
            rw [hrec] at ihr
            simp only [exc_state] at ihr ⊢
            exact (ihr.cons b).trans List.perm_middle.symm
        | false =>
          simp only [merge_fwd, hc]
          cases hrec : merge_fwd lt? l' (b :: r') with
          | ok m =>
            have := ihl (b :: r')
            rw [hrec] at this
            simp only [exc_state] at this ⊢
            exact (this.cons a).trans (List.Perm.refl _)
          | error m =>
            have := ihl (b :: r')
            rw [hrec] at this
            simp only [exc_state] at this ⊢
            exact (this.cons a).trans (List.Perm.refl _)

theorem merge_bwd_go_state_perm (lt? : α → α → Option Bool) :
    ∀ revL revR acc : List α,
      (exc_state (merge_bwd_go lt? revL revR acc)).Perm
        (revL.reverse ++ revR.reverse ++ acc) := by
  intro revL
  induction revL with
  | nil =>
    intro revR acc
    simp [merge_bwd_go, exc_state]
  | cons a l' ihl =>
    intro revR
    induction revR with
    | nil =>
      intro acc
      simp [merge_bwd_go, exc_state]
    | cons b r' ihr =>
      intro acc
      cases hc : lt? b a with
      | none =>
        simp only [merge_bwd_go, hc, exc_state]
        simp [List.append_assoc]
      | some c =>
        cases c with
        | true =>
          simp only [merge_bwd_go, hc]
          refine (ihl (b :: r') (a :: acc)).trans ?_
          simp only [List.reverse_cons, List.append_assoc]
          have h2 : List.Perm ((r'.reverse ++ [b]) ++ a :: acc)
              (a :: ((r'.reverse ++ [b]) ++ acc)) := List.perm_middle
          have h3 := List.Perm.append_left l'.reverse h2
          simpa [List.append_assoc] using h3
        | false =>
          simp only [merge_bwd_go, hc]
          refine (ihr (b :: acc)).trans ?_
          simp only [List.reverse_cons, List.append_assoc]
          exact List.Perm.append_left _ (List.Perm.append_left _
            (by simp))

theorem merge_state_perm (lt? : α → α → Option Bool) (l r : List α) :
    (merge_state lt? l r).Perm (l ++ r) := by
  unfold merge_state merge
  by_cases h : l.length ≤ r.length
  · simp only [h, if_pos]
    exact merge_fwd_state_perm lt? l r
  · simp only [h, if_neg, not_false_iff]
    have := merge_bwd_go_state_perm lt? l.reverse r.reverse []
    simpa using this

theorem merge_fwd_spec
    (hdef : ∀ x y, P x → P y → lt? x y = some (f x y))
    (hasym : ∀ x y, P x → P y → f x y = true → f y x = false)
    (hneg : ∀ x y z, P x → P y → P z → f x z = true →
      f x y = true ∨ f y z = true) :
    ∀ l r : List α, (∀ x ∈ l, P x) → (∀ x ∈ r, P x) →
      sorted_le f l → sorted_le f r →
      ∃ m, merge_fwd lt? l r = .ok m ∧ sorted_le f m ∧ m.Perm (l ++ r) ∧
        ∀ x, P x → m.filter (eqvb f x)
          = l.filter (eqvb f x) ++ r.filter (eqvb f x) := by
  intro l
  induction l with
  | nil =>
    intro r _ _ _ hsr
    exact ⟨r, by simp [merge_fwd], hsr, List.Perm.refl _, fun x _ => rfl⟩
  | cons a l' ihl =>
    intro r
    induction r with
    | nil =>
      intro hPl _ hsl _
      exact ⟨a :: l', by simp [merge_fwd], hsl, by simp, fun x _ => by simp⟩
    | cons b r' ihr =>
      intro hPl hPr hsl hsr
      have hPa : P a := hPl a (by simp)
      have hPb : P b := hPr b (by simp)
      have hc : lt? b a = some (f b a) := hdef b a hPb hPa
      cases hba : f b a with
      | true =>
        rw [hba] at hc
        obtain ⟨m, hm, hms, hmp, hmf⟩ := ihr hPl
          (fun x hx => hPr x (by simp [hx])) hsl
          (List.Pairwise.of_cons hsr)
        refine ⟨b :: m, by simp only [merge_fwd, hc, hm], ?_, ?_, ?_⟩
        · refine List.Pairwise.cons ?_ hms
          intro w hw
          have hw' : w ∈ (a :: l') ++ r' := hmp.subset hw
          rcases List.mem_append.mp hw' with hw' | hw'
          · rcases List.mem_cons.mp hw' with rfl | hw'
            · exact hasym b w hPb hPa hba
            · exact f_le_trans hneg hPb hPa (hPl w (by simp [hw']))
                (hasym b a hPb hPa hba)
                (List.rel_of_pairwise_cons hsl hw')
          · exact List.rel_of_pairwise_cons hsr (by simp [hw'])
        · exact (hmp.cons b).trans List.perm_middle.symm
        · intro x hx
          by_cases hcb : eqvb f x b = true
          · have hnone : (a :: l').filter (eqvb f x) = [] := by
              rw [List.filter_eq_nil_iff]
              intro y hy hcy
              rcases List.mem_cons.mp hy with rfl | hy
              · have := eqv_no_strict hneg hPb hPa hx hcb hcy
                rw [hba] at this
                cases this
              · have hby : f b y = true := by
                  rcases hneg b y a hPb (hPl y (by simp [hy])) hPa hba
                    with h' | h'
                  · exact h'
                  · rw [List.rel_of_pairwise_cons hsl hy] at h'
                    cases h'
                have := eqv_no_strict hneg hPb (hPl y (by simp [hy])) hx
                  hcb hcy
                rw [hby] at this
                cases this
            rw [List.filter_cons, if_pos hcb, hmf x hx, hnone]
            simp [List.filter_cons, hcb]
          · rw [List.filter_cons, if_neg hcb, hmf x hx]
            simp [List.filter_cons, hcb]
      | false =>
        rw [hba] at hc
        obtain ⟨m, hm, hms, hmp, hmf⟩ := ihl (b :: r')
          (fun x hx => hPl x (by simp [hx])) hPr
          (List.Pairwise.of_cons hsl) hsr
        refine ⟨a :: m, by simp only [merge_fwd, hc, hm], ?_, ?_, ?_⟩
        · refine List.Pairwise.cons ?_ hms
          intro w hw
          have hw' : w ∈ l' ++ b :: r' := hmp.subset hw
          rcases List.mem_append.mp hw' with hw' | hw'
          · exact List.rel_of_pairwise_cons hsl hw'
          · rcases List.mem_cons.mp hw' with rfl | hw'
            · exact hba
            · exact f_le_trans hneg hPa hPb (hPr w (by simp [hw'])) hba
                (List.rel_of_pairwise_cons hsr hw')
        · exact hmp.cons a
        · intro x hx
          rw [List.filter_cons, List.filter_cons, hmf x hx]
          by_cases hca : eqvb f x a = true
          · rw [if_pos hca, if_pos hca]
            rfl
          · rw [if_neg hca, if_neg hca]

theorem merge_bwd_go_spec
    (hdef : ∀ x y, P x → P y → lt? x y = some (f x y))
    (hasym : ∀ x y, P x → P y → f x y = true → f y x = false)
    (hneg : ∀ x y z, P x → P y → P z → f x z = true →
      f x y = true ∨ f y z = true) :
    ∀ revL revR acc : List α,
      (∀ x ∈ revL, P x) → (∀ x ∈ revR, P x) → (∀ x ∈ acc, P x) →
      sorted_le f revL.reverse → sorted_le f revR.reverse → sorted_le f acc →
      (∀ y ∈ revL, ∀ c ∈ acc, f c y = false) →
      (∀ y ∈ revR, ∀ c ∈ acc, f c y = false) →
      ∃ m, merge_bwd_go lt? revL revR acc = .ok m ∧ sorted_le f m ∧
        m.Perm (revL.reverse ++ revR.reverse ++ acc) ∧
        ∀ x, P x → m.filter (eqvb f x)
          = revL.reverse.filter (eqvb f x) ++ revR.reverse.filter (eqvb f x)
            ++ acc.filter (eqvb f x) := by
  intro revL
  induction revL with
  | nil =>
    intro revR acc hPL hPR hPacc hsL hsR hsacc hcr1 hcr2
    refine ⟨revR.reverse ++ acc, by simp [merge_bwd_go], ?_, by simp, ?_⟩
    · exact List.pairwise_append.mpr
        ⟨hsR, hsacc, fun u hu c hc => hcr2 u (List.mem_reverse.mp hu) c hc⟩
    · intro x hx
      simp [List.filter_append]
  | cons a l' ihl =>
    intro revR
    induction revR with
    | nil =>
      intro acc hPL hPR hPacc hsL hsR hsacc hcr1 hcr2
      refine ⟨(a :: l').reverse ++ acc, by simp [merge_bwd_go], ?_, by simp, ?_⟩
      · exact List.pairwise_append.mpr
          ⟨hsL, hsacc, fun u hu c hc => hcr1 u (List.mem_reverse.mp hu) c hc⟩
      · intro x hx
        by_cases hca : eqvb f x a = true <;>
          simp [List.filter_append, List.filter_cons, hca]
    | cons b r' ihr =>
      intro acc hPL hPR hPacc hsL hsR hsacc hcr1 hcr2
      have hPa : P a := hPL a (by simp)
      have hPb : P b := hPR b (by simp)
      have hc : lt? b a = some (f b a) := hdef b a hPb hPa
      have hsL' := List.pairwise_append.mp
        (show List.Pairwise (fun u w => f w u = false) (l'.reverse ++ [a]) by
          simpa using hsL)
      have hsR' := List.pairwise_append.mp
        (show List.Pairwise (fun u w => f w u = false) (r'.reverse ++ [b]) by
          simpa using hsR)
      have hLa : ∀ y ∈ l', f a y = false := fun y hy =>
        hsL'.2.2 y (List.mem_reverse.mpr hy) a (by simp)
      have hRb : ∀ y ∈ r', f b y = false := fun y hy =>
        hsR'.2.2 y (List.mem_reverse.mpr hy) b (by simp)
      cases hba : f b a with
      | true =>
        rw [hba] at hc
        obtain ⟨m, hm, hms, hmp, hmf⟩ := ihl (b :: r') (a :: acc)
          (fun x hx => hPL x (by simp [hx])) hPR
          (by
            intro x hx
            rcases List.mem_cons.mp hx with rfl | hx
            · exact hPa
            · exact hPacc x hx)
          hsL'.1 hsR
          (List.Pairwise.cons (fun c hc' => hcr1 a (by simp) c hc') hsacc)
          (by
            intro y hy c hc'
            rcases List.mem_cons.mp hc' with heqc | hc'
            · rw [heqc]
              exact hLa y hy
            · exact hcr1 y (by simp [hy]) c hc')
          (by
            intro y hy c hc'
            rcases List.mem_cons.mp hc' with heqc | hc'
            · rcases List.mem_cons.mp hy with heqy | hy
              · rw [heqc, heqy]
                exact hasym b a hPb hPa hba
              · rw [heqc]
                exact f_le_trans hneg (hPR y (by simp [hy])) hPb hPa
                  (hRb y hy) (hasym b a hPb hPa hba)
            · exact hcr2 y hy c hc')
        refine ⟨m, by simp only [merge_bwd_go, hc, hm], hms, ?_, ?_⟩
        · refine hmp.trans ?_
          simp only [List.reverse_cons, List.append_assoc]
          have h2 : List.Perm ((r'.reverse ++ [b]) ++ a :: acc)
              (a :: ((r'.reverse ++ [b]) ++ acc)) := List.perm_middle
          have h3 := List.Perm.append_left l'.reverse h2
          simpa [List.append_assoc] using h3
        · intro x hx
          have hmfx := hmf x hx
          by_cases hca : eqvb f x a = true
          · have hnone : ((b :: r').reverse).filter (eqvb f x) = [] := by
              rw [List.filter_eq_nil_iff]
              intro y hy hcy
              have hy' : y ∈ b :: r' := List.mem_reverse.mp hy
              rcases List.mem_cons.mp hy' with rfl | hy'
              · have := eqv_no_strict hneg hPb hPa hx hcy hca
                rw [hba] at this
                cases this
              · have hya : f y a = true := by
                  rcases hneg b y a hPb (hPR y (by simp [hy'])) hPa hba
                    with h' | h'
                  · rw [hRb y hy'] at h'
                    cases h'
                  · exact h'
                have := eqv_no_strict hneg (hPR y (by simp [hy'])) hPa hx
                  hcy hca
                rw [hya] at this
                cases this
            rw [hmfx, hnone]
            simp [List.reverse_cons, List.filter_append, List.filter_cons,
              hca, List.append_assoc]
          · rw [hmfx]
            simp [List.reverse_cons, List.filter_append, List.filter_cons,
              hca, List.append_assoc]
      | false =>
        rw [hba] at hc
        obtain ⟨m, hm, hms, hmp, hmf⟩ := ihr (b :: acc) hPL
          (fun x hx => hPR x (by simp [hx]))
          (by
            intro x hx
            rcases List.mem_cons.mp hx with rfl | hx
            · exact hPb
            · exact hPacc x hx)
          hsL hsR'.1
          (List.Pairwise.cons (fun c hc' => hcr2 b (by simp) c hc') hsacc)
          (by
            intro y hy c hc'
            rcases List.mem_cons.mp hc' with heqc | hc'
            · rcases List.mem_cons.mp hy with heqy | hy
              · rw [heqc, heqy]
                exact hba
              · rw [heqc]
                exact f_le_trans hneg (hPL y (by simp [hy])) hPa hPb
                  (hLa y hy) hba
            · exact hcr1 y hy c hc')
          (by
            intro y hy c hc'
            rcases List.mem_cons.mp hc' with heqc | hc'
            · rw [heqc]
              exact hRb y hy
            · exact hcr2 y (by simp [hy]) c hc')
        refine ⟨m, by simp only [merge_bwd_go, hc, hm], hms, ?_, ?_⟩
        · have heq0 : (a :: l').reverse ++ r'.reverse ++ (b :: acc)
              = (a :: l').reverse ++ (b :: r').reverse ++ acc := by
            simp [List.append_assoc]
          exact heq0 ▸ hmp
        · intro x hx
          rw [hmf x hx]
          by_cases hcb : eqvb f x b = true <;>
            simp [List.reverse_cons, List.filter_append, List.filter_cons,
              hcb, List.append_assoc]

theorem merge_spec
    (hdef : ∀ x y, P x → P y → lt? x y = some (f x y))
    (hasym : ∀ x y, P x → P y → f x y = true → f y x = false)
    (hneg : ∀ x y z, P x → P y → P z → f x z = true →
      f x y = true ∨ f y z = true)
    (l r : List α) (hPl : ∀ x ∈ l, P x) (hPr : ∀ x ∈ r, P x)
    (hsl : sorted_le f l) (hsr : sorted_le f r) :
    ∃ m, merge lt? l r = .ok m ∧ sorted_le f m ∧ m.Perm (l ++ r) ∧
      ∀ x, P x → m.filter (eqvb f x)
        = l.filter (eqvb f x) ++ r.filter (eqvb f x) := by
  unfold merge
  by_cases h : l.length ≤ r.length
  · simp only [h, if_pos]
    exact merge_fwd_spec hdef hasym hneg l r hPl hPr hsl hsr
  · simp only [h, if_neg, not_false_iff]
    obtain ⟨m, hm, hms, hmp, hmf⟩ := merge_bwd_go_spec hdef hasym hneg
      l.reverse r.reverse []
      (fun x hx => hPl x (List.mem_reverse.mp hx))
      (fun x hx => hPr x (List.mem_reverse.mp hx))
      (by simp)
      (by simpa using hsl) (by simpa using hsr) List.Pairwise.nil
      (by simp) (by simp)
    refine ⟨m, hm, hms, ?_, ?_⟩
    · simpa using hmp
    · intro x hx
      have := hmf x hx
      simpa using this

theorem merge_state_of_ok (lt? : α → α → Option Bool) (l r m : List α)
    (hm : merge lt? l r = .ok m) : merge_state lt? l r = m := by
  unfold merge_state
  rw [hm]
  rfl

theorem find_run_desc_spec (lt? : α → α → Option Bool) :
    ∀ (cur : α) (rem rest run : List α),
      find_run_desc lt? cur rem = .ok (rest, run) →
      rest ++ run.reverse = (cur :: rem).reverse ∧ run ≠ [] ∧
        run.head? = some cur ∧
        List.Chain' (fun a b => lt? a b = some true) run
  | cur, [], rest, run, h => by
    rw [find_run_desc] at h
    injection h with h
    injection h with h1 h2
    subst h1; subst h2
    simp
  | cur, y :: q, rest, run, h => by
    rw [find_run_desc] at h
    cases hc : lt? cur y with
    | none => rw [hc] at h; cases h
    | some c =>
      rw [hc] at h
      cases c with
      | true =>
        cases hrec : find_run_desc lt? y q with
        | error e => rw [hrec] at h; cases h
        | ok rr =>
          obtain ⟨rest', run'⟩ := rr
          rw [hrec] at h
          injection h with h
          injection h with h1 h2
          subst h1; subst h2
          obtain ⟨heq, hne, hhead, hchain⟩ :=
            find_run_desc_spec lt? y q rest' run' hrec
          refine ⟨?_, by simp, by simp, ?_⟩
          · simp only [List.reverse_cons]
            rw [← List.append_assoc, heq]
            simp
          · rw [List.chain'_cons']
            refine ⟨?_, hchain⟩
            intro z hz
            rw [hhead] at hz
            injection hz with hz
            rw [← hz]
            exact hc
      | false =>
        injection h with h
        injection h with h1 h2
        subst h1; subst h2
        refine ⟨by simp, by simp, by simp, by simp⟩

theorem find_run_asc_spec (lt? : α → α → Option Bool) :
    ∀ (cur : α) (rem rest run : List α),
      find_run_asc lt? cur rem = .ok (rest, run) →
      rest ++ run = (cur :: rem).reverse ∧ run ≠ [] ∧
        run.getLast? = some cur ∧
        List.Chain' (fun a b => lt? b a = some false) run
  | cur, [], rest, run, h => by
    rw [find_run_asc] at h
    injection h with h
    injection h with h1 h2
    subst h1; subst h2
    simp
  | cur, y :: q, rest, run, h => by
    rw [find_run_asc] at h
    cases hc : lt? cur y with
    | none => rw [hc] at h; cases h
    | some c =>
      rw [hc] at h
      cases c with
      | false =>
        cases hrec : find_run_asc lt? y q with
        | error e => rw [hrec] at h; cases h
        | ok rr =>
          obtain ⟨rest', run'⟩ := rr
          rw [hrec] at h
          injection h with h
          injection h with h1 h2
          subst h1; subst h2
          obtain ⟨heq, hne, hlast, hchain⟩ :=
            find_run_asc_spec lt? y q rest' run' hrec
          refine ⟨?_, by simp, by simp, ?_⟩
          · simp only [List.reverse_cons]
            rw [← List.append_assoc, heq]
            simp
          · rw [List.chain'_append]
            refine ⟨hchain, by simp, ?_⟩
            intro z hz w hw
            rw [hlast] at hz
            injection hz with hz
            simp only [List.head?_cons, Option.mem_def, Option.some.injEq]
              at hw
            rw [← hz, ← hw]
            exact hc
      | true =>
        injection h with h
        injection h with h1 h2
        subst h1; subst h2
        refine ⟨by simp, by simp, by simp, by simp⟩

theorem find_run_spec (lt? : α → α → Option Bool)
    (pending rest run : List α)
    (h : find_run lt? pending = .ok (rest, run)) :
    (pending = [] ∧ rest = [] ∧ run = []) ∨
    (run ≠ [] ∧
      ((pending = rest ++ run ∧
        List.Chain' (fun a b => lt? b a = some false) run) ∨
       (pending = rest ++ run.reverse ∧
        List.Chain' (fun a b => lt? a b = some true) run))) := by
  have hpend : pending = pending.reverse.reverse := by simp
  rw [find_run] at h
  cases hrev : pending.reverse with
  | nil =>
    rw [hrev] at h
    injection h with h
    injection h with h1 h2
    subst h1; subst h2
    rw [hrev] at hpend
    exact Or.inl ⟨by simpa using hpend, rfl, rfl⟩
  | cons x0 t =>
    cases t with
    | nil =>
      rw [hrev] at h
      injection h with h
      injection h with h1 h2
      subst h1; subst h2
      rw [hrev] at hpend
      refine Or.inr ⟨by simp, Or.inl ⟨by simpa using hpend, by simp⟩⟩
    | cons x1 q =>
      rw [hrev] at h
      simp only [] at h
      rw [hrev] at hpend
      cases hc : lt? x0 x1 with
      | none => rw [hc] at h; cases h
      | some c =>
        rw [hc] at h
        cases c with
        | true =>
          cases hrec : find_run_desc lt? x1 q with
          | error e => rw [hrec] at h; cases h
          | ok rr =>
            obtain ⟨rest', run'⟩ := rr
            rw [hrec] at h
            injection h with h
            injection h with h1 h2
            subst h1; subst h2
            obtain ⟨heq, hne, hhead, hchain⟩ :=
              find_run_desc_spec lt? x1 q rest' run' hrec
            refine Or.inr ⟨by simp, Or.inr ⟨?_, ?_⟩⟩
            · rw [hpend]
              simp only [List.reverse_cons]
              rw [← List.append_assoc, heq]
              simp
            · rw [List.chain'_cons']
              refine ⟨?_, hchain⟩
              intro z hz
              rw [hhead] at hz
              injection hz with hz
              rw [← hz]
              exact hc
        | false =>
          cases hrec : find_run_asc lt? x1 q with
          | error e => rw [hrec] at h; cases h
          | ok rr =>
            obtain ⟨rest', run'⟩ := rr
            rw [hrec] at h
            injection h with h
            injection h with h1 h2
            subst h1; subst h2
            obtain ⟨heq, hne, hlast, hchain⟩ :=
              find_run_asc_spec lt? x1 q rest' run' hrec
            refine Or.inr ⟨by simp, Or.inl ⟨?_, ?_⟩⟩
            · rw [hpend]
              simp only [List.reverse_cons]
              rw [← List.append_assoc, heq]
              simp
            · rw [List.chain'_append]
              refine ⟨hchain, by simp, ?_⟩
              intro z hz w hw
              rw [hlast] at hz
              injection hz with hz
              simp only [List.head?_cons, Option.mem_def, Option.some.injEq]
                at hw
              rw [← hz, ← hw]
              exact hc

theorem find_run_desc_ok
    (hdef : ∀ x y, P x → P y → lt? x y = some (f x y)) :
    ∀ (cur : α) (rem : List α), P cur → (∀ x ∈ rem, P x) →
      ∃ rr, find_run_desc lt? cur rem = .ok rr
  | cur, [], _, _ => ⟨([], [cur]), by rw [find_run_desc]⟩
  | cur, y :: q, hcur, hP => by
    have hy : P y := hP y (by simp)
    have hc : lt? cur y = some (f cur y) := hdef cur y hcur hy
    rw [find_run_desc, hc]
    cases f cur y with
    | true =>
      obtain ⟨rr, hrr⟩ := find_run_desc_ok hdef y q hy
        (fun x hx => hP x (by simp [hx]))
      rw [hrr]
      exact ⟨_, rfl⟩
    | false => exact ⟨_, rfl⟩

theorem find_run_asc_ok
    (hdef : ∀ x y, P x → P y → lt? x y = some (f x y)) :
    ∀ (cur : α) (rem : List α), P cur → (∀ x ∈ rem, P x) →
      ∃ rr, find_run_asc lt? cur rem = .ok rr
  | cur, [], _, _ => ⟨([], [cur]), by rw [find_run_asc]⟩
  | cur, y :: q, hcur, hP => by
    have hy : P y := hP y (by simp)
    have hc : lt? cur y = some (f cur y) := hdef cur y hcur hy
    rw [find_run_asc, hc]
    cases f cur y with
    | false =>
      obtain ⟨rr, hrr⟩ := find_run_asc_ok hdef y q hy
        (fun x hx => hP x (by simp [hx]))
      rw [hrr]
      exact ⟨_, rfl⟩
    | true => exact ⟨_, rfl⟩

theorem find_run_ok
    (hdef : ∀ x y, P x → P y → lt? x y = some (f x y))
    (pending : List α) (hP : ∀ x ∈ pending, P x) :
    ∃ rr, find_run lt? pending = .ok rr := by
  rw [find_run]
  cases hrev : pending.reverse with
  | nil => exact ⟨_, rfl⟩
  | cons x0 t =>
    have hPrev : ∀ x ∈ x0 :: t, P x := by
      intro x hx
      rw [← hrev] at hx
      exact hP x (List.mem_reverse.mp hx)
    cases t with
    | nil => exact ⟨_, rfl⟩
    | cons x1 q =>
      have hx0 : P x0 := hPrev x0 (by simp)
      have hx1 : P x1 := hPrev x1 (by simp)
      have hc : lt? x0 x1 = some (f x0 x1) := hdef x0 x1 hx0 hx1
      simp only []
      rw [hc]
      cases f x0 x1 with
      | true =>
        obtain ⟨rr, hrr⟩ := find_run_desc_ok hdef x1 q hx1
          (fun x hx => hPrev x (by simp [hx]))
        rw [hrr]
        exact ⟨_, rfl⟩
      | false =>
        obtain ⟨rr, hrr⟩ := find_run_asc_ok hdef x1 q hx1
          (fun x hx => hPrev x (by simp [hx]))
        rw [hrr]
        exact ⟨_, rfl⟩

theorem min_run_extend_state_perm (lt? : α → α → Option Bool)
    (rest run : List α) :
    ((min_run_extend lt? rest run).1 ++ (min_run_extend lt? rest run).2).Perm
      (rest ++ run) := by
  induction rest, run using min_run_extend.induct lt? with
  | case1 rest run h ih =>
    rw [min_run_extend, dif_pos h]
    refine ih.trans ?_
    have hne : rest ≠ [] := List.length_pos.mp h.1
    have hperm := insert_head_state_perm lt?
      (rest.getLast hne :: run)
    refine ((List.Perm.refl rest.dropLast).append hperm).trans ?_
    have : rest.dropLast ++ rest.getLast hne :: run
        = (rest.dropLast ++ [rest.getLast hne]) ++ run := by
      simp
    rw [this, List.dropLast_append_getLast hne]
  | case2 rest run h =>
    rw [min_run_extend, dif_neg h]

theorem min_run_extend_fst_length (lt? : α → α → Option Bool)
    (rest run : List α) :
    (min_run_extend lt? rest run).1.length ≤ rest.length := by
  induction rest, run using min_run_extend.induct lt? with
  | case1 rest run h ih =>
    rw [min_run_extend, dif_pos h]
    refine le_trans ih ?_
    simp [List.length_dropLast]
  | case2 rest run h =>
    rw [min_run_extend, dif_neg h]

theorem min_run_extend_spec
    (hdef : ∀ x y, P x → P y → lt? x y = some (f x y))
    (hasym : ∀ x y, P x → P y → f x y = true → f y x = false)
    (hneg : ∀ x y z, P x → P y → P z → f x z = true →
      f x y = true ∨ f y z = true)
    (rest run : List α) (hP : ∀ x ∈ rest ++ run, P x)
    (hsorted : sorted_le f run) :
    sorted_le f (min_run_extend lt? rest run).2 ∧
    ∀ x, P x →
      ((min_run_extend lt? rest run).1
        ++ (min_run_extend lt? rest run).2).filter (eqvb f x)
      = (rest ++ run).filter (eqvb f x) := by
  induction rest, run using min_run_extend.induct lt? with
  | case1 rest run h ih =>
    have hne : rest ≠ [] := List.length_pos.mp h.1
    have hlastP : P (rest.getLast hne) :=
      hP _ (by simp [List.getLast_mem hne])
    have hPcons : ∀ x ∈ rest.getLast hne :: run, P x := by
      intro x hx
      rcases List.mem_cons.mp hx with rfl | hx
      · exact hlastP
      · exact hP x (by simp [hx])
    obtain ⟨m, hm, hms, hmp⟩ := insert_head_sorted hdef hasym hneg
      (rest.getLast hne :: run) hPcons hsorted
    have hstate : insert_head_state lt? (rest.getLast hne :: run) = m := by
      unfold insert_head_state
      rw [hm]
      rfl
    have hPnext : ∀ x ∈ rest.dropLast
        ++ insert_head_state lt? (rest.getLast hne :: run), P x := by
      intro x hx
      rcases List.mem_append.mp hx with hx | hx
      · exact hP x (List.mem_append.mpr (Or.inl
          ((List.dropLast_sublist rest).subset hx)))
      · rw [hstate] at hx
        exact hPcons x (hmp.subset hx)
    have hsnext : sorted_le f
        (insert_head_state lt? (rest.getLast hne :: run)) := by
      rw [hstate]
      exact hms
    obtain ⟨ihs, ihf⟩ := ih hPnext hsnext
    rw [min_run_extend, dif_pos h]
    refine ⟨ihs, ?_⟩
    intro x hx
    rw [ihf x hx, List.filter_append, List.filter_append,
      insert_head_state_filter hdef hneg _ hPcons x hx]
    have hrest : rest.dropLast ++ rest.getLast hne :: run
        = rest ++ run := by
      rw [show rest.dropLast ++ rest.getLast hne :: run
        = (rest.dropLast ++ [rest.getLast hne]) ++ run by simp,
        List.dropLast_append_getLast hne]
    calc rest.dropLast.filter (eqvb f x)
          ++ (rest.getLast hne :: run).filter (eqvb f x)
        = (rest.dropLast ++ rest.getLast hne :: run).filter (eqvb f x) := by
          rw [List.filter_append]
      _ = (rest ++ run).filter (eqvb f x) := by rw [hrest]
      _ = rest.filter (eqvb f x) ++ run.filter (eqvb f x) :=
          List.filter_append rest run
  | case2 rest run h =>
    rw [min_run_extend, dif_neg h]
    exact ⟨hsorted, fun x _ => rfl⟩

theorem collapse_loop_fallback (lt? : α → α → Option Bool) (pe : Bool)
    (x : List (List α))
    (h0 : ∀ (left right : List α) (rest : List (List α)),
      collapse pe x = some 0 → x = left :: right :: rest → False)
    (h1 : ∀ (top left right : List α) (rest : List (List α)),
      collapse pe x = some 1 → x = top :: left :: right :: rest → False) :
    collapse_loop lt? pe x = x :=
  collapse_loop.eq_3 lt? pe x h0 h1

theorem collapse_loop_flatten_perm (lt? : α → α → Option Bool)
    (pe : Bool) (runs : List (List α)) :
    (collapse_loop lt? pe runs).flatten.Perm runs.flatten := by
  induction runs using collapse_loop.induct lt? pe with
  | case1 r1 r2 rest hcol ih =>
    rw [collapse_loop.eq_1 lt? pe r1 r2 rest hcol]
    refine ih.trans ?_
    simp only [List.flatten_cons, ← List.append_assoc]
    exact (merge_state_perm lt? r1 r2).append_right _
  | case2 top r1 r2 rest hcol ih =>
    rw [collapse_loop.eq_2 lt? pe top r1 r2 rest hcol]
    refine ih.trans ?_
    simp only [List.flatten_cons]
    exact List.Perm.append_left top
      ((List.append_assoc r1 r2 rest.flatten) ▸
        ((merge_state_perm lt? r1 r2).append_right rest.flatten))
  | case3 x h0 h1 =>
    rw [collapse_loop_fallback lt? pe x h0 h1]

theorem collapse_loop_length_le_one (lt? : α → α → Option Bool)
    (runs : List (List α)) :
    (collapse_loop lt? true runs).length ≤ 1 := by
  induction runs using collapse_loop.induct lt? true with
  | case1 r1 r2 rest hcol ih =>
    rw [collapse_loop.eq_1 lt? true r1 r2 rest hcol]
    exact ih
  | case2 top r1 r2 rest hcol ih =>
    rw [collapse_loop.eq_2 lt? true top r1 r2 rest hcol]
    exact ih
  | case3 x h0 h1 =>
    rw [collapse_loop_fallback lt? true x h0 h1]
    match x with
    | [] => simp
    | [r] => simp
    | r1 :: r2 :: rest =>
      exfalso
      match rest with
      | [] => exact h0 r1 r2 [] (by simp [collapse]) rfl
      | r3 :: rest2 =>
        by_cases hlt : r3.length < r1.length
        · exact h1 r1 r2 r3 rest2 (by simp [collapse, hlt]) rfl
        · exact h0 r1 r2 (r3 :: rest2) (by simp [collapse, hlt]) rfl

theorem collapse_loop_ne_nil (lt? : α → α → Option Bool)
    (pe : Bool) (runs : List (List α)) (hne : runs ≠ []) :
    collapse_loop lt? pe runs ≠ [] := by
  induction runs using collapse_loop.induct lt? pe with
  | case1 r1 r2 rest hcol ih =>
    rw [collapse_loop.eq_1 lt? pe r1 r2 rest hcol]
    exact ih (by simp)
  | case2 top r1 r2 rest hcol ih =>
    rw [collapse_loop.eq_2 lt? pe top r1 r2 rest hcol]
    exact ih (by simp)
  | case3 x h0 h1 =>
    rw [collapse_loop_fallback lt? pe x h0 h1]
    exact hne

theorem collapse_loop_spec
    (hdef : ∀ x y, P x → P y → lt? x y = some (f x y))
    (hasym : ∀ x y, P x → P y → f x y = true → f y x = false)
    (hneg : ∀ x y z, P x → P y → P z → f x z = true →
      f x y = true ∨ f y z = true)
    (pe : Bool) :
    ∀ runs : List (List α), (∀ x ∈ runs.flatten, P x) →
      (∀ r ∈ runs, sorted_le f r) →
      (∀ r ∈ collapse_loop lt? pe runs, sorted_le f r) ∧
      (∀ x, P x → (collapse_loop lt? pe runs).flatten.filter (eqvb f x)
        = runs.flatten.filter (eqvb f x)) := by
  intro runs
  induction runs using collapse_loop.induct lt? pe with
  | case1 r1 r2 rest hcol ih =>
    intro hP hsort
    have hP1 : ∀ x ∈ r1, P x := fun x hx => hP x (by simp [hx])
    have hP2 : ∀ x ∈ r2, P x := fun x hx => hP x (by simp [hx])
    have hPrest : ∀ x ∈ rest.flatten, P x := fun x hx =>
      hP x (by simp [List.flatten_cons, List.mem_append, hx])
    obtain ⟨m, hm, hms, hmp, hmf⟩ := merge_spec hdef hasym hneg r1 r2 hP1 hP2
      (hsort r1 (by simp)) (hsort r2 (by simp))
    have hmse : merge_state lt? r1 r2 = m := merge_state_of_ok lt? r1 r2 m hm
    have hPnext : ∀ x ∈ (merge_state lt? r1 r2 :: rest).flatten, P x := by
      intro x hx
      simp only [List.flatten_cons, List.mem_append, hmse] at hx
      rcases hx with hx | hx
      · rcases List.mem_append.mp (hmp.subset hx) with hx | hx
        · exact hP1 x hx
        · exact hP2 x hx
      · exact hPrest x hx
    have hsnext : ∀ r ∈ merge_state lt? r1 r2 :: rest, sorted_le f r := by
      intro r hr
      rcases List.mem_cons.mp hr with heq | hr
      · rw [heq, hmse]
        exact hms
      · exact hsort r (by simp [hr])
    obtain ⟨ihs, ihf⟩ := ih hPnext hsnext
    rw [collapse_loop.eq_1 lt? pe r1 r2 rest hcol]
    refine ⟨ihs, ?_⟩
    intro x hx
    rw [ihf x hx]
    simp [List.flatten_cons, List.filter_append, hmse, hmf x hx,
      List.append_assoc]
  | case2 top r1 r2 rest hcol ih =>
    intro hP hsort
    have hP1 : ∀ x ∈ r1, P x := fun x hx => hP x (by simp [hx])
    have hP2 : ∀ x ∈ r2, P x := fun x hx => hP x (by simp [hx])
    have hPtop : ∀ x ∈ top, P x := fun x hx => hP x (by simp [hx])
    have hPrest : ∀ x ∈ rest.flatten, P x := fun x hx =>
      hP x (by simp [List.flatten_cons, List.mem_append, hx])
    obtain ⟨m, hm, hms, hmp, hmf⟩ := merge_spec hdef hasym hneg r1 r2 hP1 hP2
      (hsort r1 (by simp)) (hsort r2 (by simp))
    have hmse : merge_state lt? r1 r2 = m := merge_state_of_ok lt? r1 r2 m hm
    have hPnext : ∀ x ∈ (top :: merge_state lt? r1 r2 :: rest).flatten,
        P x := by
      intro x hx
      simp only [List.flatten_cons, List.mem_append, hmse] at hx
      rcases hx with hx | hx | hx
      · exact hPtop x hx
      · rcases List.mem_append.mp (hmp.subset hx) with hx | hx
        · exact hP1 x hx
        · exact hP2 x hx
      · exact hPrest x hx
    have hsnext : ∀ r ∈ top :: merge_state lt? r1 r2 :: rest,
        sorted_le f r := by
      intro r hr
      rcases List.mem_cons.mp hr with heq | hr
      · rw [heq]
        exact hsort top (by simp)
      · rcases List.mem_cons.mp hr with heq | hr
        · rw [heq, hmse]
          exact hms
        · exact hsort r (by simp [hr])
    obtain ⟨ihs, ihf⟩ := ih hPnext hsnext
    rw [collapse_loop.eq_2 lt? pe top r1 r2 rest hcol]
    refine ⟨ihs, ?_⟩
    intro x hx
    rw [ihf x hx]
    simp [List.flatten_cons, List.filter_append, hmse, hmf x hx,
      List.append_assoc]
  | case3 x h0 h1 =>
    intro hP hsort
    rw [collapse_loop_fallback lt? pe x h0 h1]
    exact ⟨hsort, fun y _ => rfl⟩

theorem merge_sort_loop_state_perm (lt? : α → α → Option Bool)
    (fuel : Nat) (pending : List α) (runs : List (List α)) :
    (exc_state (merge_sort_loop lt? fuel pending runs)).Perm
      (pending ++ runs.flatten) := by
  induction fuel, pending, runs using merge_sort_loop.induct lt? with
  | case1 t runs =>
    rw [merge_sort_loop.eq_1]
    exact List.Perm.refl _
  | case2 pending runs hne =>
    rw [merge_sort_loop.eq_2 lt? pending runs hne]
    exact List.Perm.refl _
  | case3 fuel pending runs hne a hfind =>
    rw [merge_sort_loop.eq_3 lt? pending runs fuel hne, hfind]
    exact List.Perm.refl _
  | case4 fuel pending runs hne rest run hfind s ih =>
    rw [merge_sort_loop.eq_3 lt? pending runs fuel hne, hfind]
    have ih2 : (exc_state (merge_sort_loop lt? fuel
        (min_run_extend lt? rest run).1
        (collapse_loop lt? (min_run_extend lt? rest run).1.isEmpty
          ((min_run_extend lt? rest run).2 :: runs)))).Perm
        ((min_run_extend lt? rest run).1
          ++ (collapse_loop lt? (min_run_extend lt? rest run).1.isEmpty
            ((min_run_extend lt? rest run).2 :: runs)).flatten) := ih
    refine ih2.trans ?_
    have hmr := min_run_extend_state_perm lt? rest run
    have hfr : ((min_run_extend lt? rest run).1
        ++ (min_run_extend lt? rest run).2).Perm pending := by
      refine hmr.trans ?_
      rcases find_run_spec lt? pending rest run hfind with
        ⟨hp, hr, hru⟩ | ⟨hne', hcase⟩
      · exact absurd hp hne
      · rcases hcase with ⟨heq, -⟩ | ⟨heq, -⟩
        · rw [heq]
        · rw [heq]
          exact List.Perm.append_left rest (List.reverse_perm run).symm
    have step1 : ((collapse_loop lt?
        (min_run_extend lt? rest run).1.isEmpty
        ((min_run_extend lt? rest run).2 :: runs)).flatten).Perm
        ((min_run_extend lt? rest run).2 ++ runs.flatten) := by
      have := collapse_loop_flatten_perm lt?
        (min_run_extend lt? rest run).1.isEmpty
        ((min_run_extend lt? rest run).2 :: runs)
      simpa [List.flatten_cons] using this
    refine (List.Perm.append_left _ step1).trans ?_
    rw [← List.append_assoc]
    exact hfr.append_right runs.flatten

theorem merge_sort_loop_spec
    (hdef : ∀ x y, P x → P y → lt? x y = some (f x y))
    (hasym : ∀ x y, P x → P y → f x y = true → f y x = false)
    (hneg : ∀ x y z, P x → P y → P z → f x z = true →
      f x y = true ∨ f y z = true) :
    ∀ (fuel : Nat) (pending : List α) (runs : List (List α)),
      pending.length ≤ fuel →
      (∀ x ∈ pending ++ runs.flatten, P x) →
      (∀ r ∈ runs, sorted_le f r) →
      (pending = [] → runs.length ≤ 1) →
      ∃ out, merge_sort_loop lt? fuel pending runs = .ok out ∧
        sorted_le f out ∧
        ∀ x, P x → out.filter (eqvb f x)
          = (pending ++ runs.flatten).filter (eqvb f x) := by
  intro fuel pending runs
  induction fuel, pending, runs using merge_sort_loop.induct lt? with
  | case1 t runs =>
    intro _ _ hsort hlen1
    refine ⟨runs.flatten, merge_sort_loop.eq_1 lt? t runs, ?_, fun x _ => rfl⟩
    match runs, hlen1 rfl with
    | [], _ => exact List.Pairwise.nil
    | [r], _ => simpa [sorted_le] using hsort r (by simp)
  | case2 pending runs hne =>
    intro hfuel _ _ _
    exact ((hne (List.length_eq_zero.mp (Nat.le_zero.mp hfuel))).elim)
  | case3 fuel pending runs hne a hfind =>
    intro _ hP _ _
    obtain ⟨rr, hrr⟩ := find_run_ok hdef pending
      (fun x hx => hP x (by simp [hx]))
    rw [hfind] at hrr
    cases hrr
  | case4 fuel pending runs hne rest run hfind s ih =>
    intro hfuel hP hsort hlen1
    rcases find_run_spec lt? pending rest run hfind with
      ⟨hp, -, -⟩ | ⟨hrune, hcase⟩
    · exact (hne hp).elim
    have hPpend : ∀ x ∈ pending, P x := fun x hx => hP x (by simp [hx])
    have hsub : ∀ x ∈ rest ++ run, x ∈ pending := by
      rcases hcase with ⟨heq, -⟩ | ⟨heq, -⟩
      · intro x hx
        rw [heq]
        exact hx
      · intro x hx
        rw [heq]
        rcases List.mem_append.mp hx with hx | hx
        · exact List.mem_append.mpr (Or.inl hx)
        · exact List.mem_append.mpr (Or.inr (List.mem_reverse.mpr hx))
    have hPrr : ∀ x ∈ rest ++ run, P x := fun x hx => hPpend x (hsub x hx)
    have hPrun : ∀ x ∈ run, P x := fun x hx => hPrr x (by simp [hx])
    have hruns : sorted_le f run := by
      rcases hcase with ⟨-, hchain⟩ | ⟨-, hchain⟩
      · exact chain_le_sorted hdef hneg run hPrun hchain
      · exact pairwise_strict_sorted hasym run hPrun
          (chain_lt_pairwise hdef hasym hneg run hPrun hchain)
    have hfilter_pend : ∀ x, P x →
        (rest ++ run).filter (eqvb f x) = pending.filter (eqvb f x) := by
      rcases hcase with ⟨heq, -⟩ | ⟨heq, hchain⟩
      · intro x _
        rw [heq]
      · intro x hx
        rw [heq, List.filter_append, List.filter_append,
          filter_reverse_eqv hneg run hPrun
            (chain_lt_pairwise hdef hasym hneg run hPrun hchain) x hx]
    obtain ⟨hs2, hf2⟩ := min_run_extend_spec hdef hasym hneg rest run
      hPrr hruns
    have hmr := min_run_extend_state_perm lt? rest run
    have hPs : ∀ x ∈ (min_run_extend lt? rest run).1
        ++ (min_run_extend lt? rest run).2, P x :=
      fun x hx => hPrr x (hmr.subset hx)
    have hPs1 : ∀ x ∈ (min_run_extend lt? rest run).1, P x :=
      fun x hx => hPs x (by simp [hx])
    have hPs2 : ∀ x ∈ (min_run_extend lt? rest run).2, P x :=
      fun x hx => hPs x (by simp [hx])
    have hPflat : ∀ x ∈ runs.flatten, P x := fun x hx => hP x (by simp [hx])
    obtain ⟨hclsort, hclfilter⟩ := collapse_loop_spec hdef hasym hneg
      ((min_run_extend lt? rest run).1.isEmpty)
      ((min_run_extend lt? rest run).2 :: runs)
      (by
        intro x hx
        simp only [List.flatten_cons, List.mem_append] at hx
        rcases hx with hx | hx
        · exact hPs2 x hx
        · exact hPflat x hx)
      (by
        intro r hr
        rcases List.mem_cons.mp hr with heqr | hr
        · rw [heqr]
          exact hs2
        · exact hsort r hr)
    have hlenrr : rest.length + run.length = pending.length := by
      rcases hcase with ⟨heq, -⟩ | ⟨heq, -⟩ <;> rw [heq] <;> simp
    have hfuel' : (min_run_extend lt? rest run).1.length ≤ fuel := by
      have h1 := min_run_extend_fst_length lt? rest run
      have h2 : 1 ≤ run.length := List.length_pos.mpr hrune
      omega
    have hclperm := collapse_loop_flatten_perm lt?
      ((min_run_extend lt? rest run).1.isEmpty)
      ((min_run_extend lt? rest run).2 :: runs)
    have hPnext : ∀ x ∈ (min_run_extend lt? rest run).1
        ++ (collapse_loop lt? (min_run_extend lt? rest run).1.isEmpty
          ((min_run_extend lt? rest run).2 :: runs)).flatten, P x := by
      intro x hx
      rcases List.mem_append.mp hx with hx | hx
      · exact hPs1 x hx
      · have hx2 := hclperm.subset hx
        simp only [List.flatten_cons, List.mem_append] at hx2
        rcases hx2 with hx2 | hx2
        · exact hPs2 x hx2
        · exact hPflat x hx2
    have hinv : (min_run_extend lt? rest run).1 = [] →
        (collapse_loop lt? (min_run_extend lt? rest run).1.isEmpty
          ((min_run_extend lt? rest run).2 :: runs)).length ≤ 1 := by
      intro hval
      rw [hval]
      exact collapse_loop_length_le_one lt?
        ((min_run_extend lt? rest run).2 :: runs)
    obtain ⟨out, hout, houts, houtf⟩ := ih hfuel' hPnext hclsort hinv
    refine ⟨out, ?_, houts, ?_⟩
    · rw [merge_sort_loop.eq_3 lt? pending runs fuel hne, hfind]
      exact hout
    · intro x hx
      rw [houtf x hx]
      have hchain2 : ((min_run_extend lt? rest run).1).filter (eqvb f x)
          ++ ((min_run_extend lt? rest run).2).filter (eqvb f x)
          = pending.filter (eqvb f x) := by
        rw [← List.filter_append, hf2 x hx, List.filter_append,
          ← List.filter_append, hfilter_pend x hx]
      simp only [List.filter_append]
      rw [hclfilter x hx]
      simp only [List.flatten_cons, List.filter_append,
        ← List.append_assoc]
      rw [hchain2]

theorem merge_sort_sorts
    (hdef : ∀ x y, P x → P y → lt? x y = some (f x y))
    (hasym : ∀ x y, P x → P y → f x y = true → f y x = false)
    (hneg : ∀ x y z, P x → P y → P z → f x z = true →
      f x y = true ∨ f y z = true)
    (v : List α) (hP : ∀ x ∈ v, P x) :
    ∃ out, merge_sort lt? v = .ok out ∧ sorted_le f out ∧
      ∀ x, P x → out.filter (eqvb f x) = v.filter (eqvb f x) := by
  rw [merge_sort]
  by_cases hlen : v.length ≤ MAX_INSERTION
  · rw [if_pos hlen]
    obtain ⟨hs, hf⟩ := insertion_sort_spec hdef hasym hneg v hP
    exact ⟨_, rfl, hs, hf⟩
  · rw [if_neg hlen]
    obtain ⟨out, hout, houts, houtf⟩ := merge_sort_loop_spec hdef hasym hneg
      v.length v [] (le_refl _) (by simpa using hP) (by simp)
      (fun hempty => by simp)
    exact ⟨out, hout, houts, fun x hx => by simpa using houtf x hx⟩

theorem merge_sort_state_perm (lt? : α → α → Option Bool) (v : List α) :
    (exc_state (merge_sort lt? v)).Perm v := by
  rw [merge_sort]
  by_cases hlen : v.length ≤ MAX_INSERTION
  · rw [if_pos hlen]
    simpa [exc_state] using insertion_sort_perm lt? v
  · rw [if_neg hlen]
    simpa using merge_sort_loop_state_perm lt? v.length v []

end sort_correctness

/-- Claim C1: when the comparator totally orders the occurring values —
`compare` is everywhere defined on elements of the slice and decided by a
strict test `f` that is asymmetric and negatively transitive over them (a
strict weak order, the consistency the spec demands) — `try_sort_by` returns
`Ok(())` and leaves the slice in non-descending order under that comparator;
and `try_sort` is exactly `try_sort_by` applied to the comparator derived
from `partial_cmp` (`pcmp`), so the same holds for it. -/
theorem c1_try_sort_sorts (compare : α → α → Option Bool)
    (pcmp : α → α → Option Ordering) (f : α → α → Bool) (v : List α)
    (hdef : ∀ x ∈ v, ∀ y ∈ v, compare x y = some (f x y))
    (hasym : ∀ x ∈ v, ∀ y ∈ v, f x y = true → f y x = false)
    (hneg : ∀ x ∈ v, ∀ y ∈ v, ∀ z ∈ v, f x z = true →
      f x y = true ∨ f y z = true)
    (hpc : ∀ a b, compare a b = match pcmp a b with
      | none => none
      | some Ordering.lt => some true
      | some _ => some false) :
    (try_sort_by compare v).1 = Except.ok () ∧
    sorted_le f (try_sort_by compare v).2 ∧
    try_sort pcmp v = try_sort_by compare v := by
  have hdef' : ∀ x y : α, x ∈ v → y ∈ v → compare x y = some (f x y) :=
    fun x y hx hy => hdef x hx y hy
  have hasym' : ∀ x y : α, x ∈ v → y ∈ v → f x y = true → f y x = false :=
    fun x y hx hy => hasym x hx y hy
  have hneg' : ∀ x y z : α, x ∈ v → y ∈ v → z ∈ v → f x z = true →
      f x y = true ∨ f y z = true :=
    fun x y z hx hy hz => hneg x hx y hy z hz
  obtain ⟨out, hout, houts, -⟩ := merge_sort_sorts (P := fun t => t ∈ v)
    hdef' hasym' hneg' v (fun x hx => hx)
  have hts : try_sort_by compare v = (Except.ok (), out) := by
    unfold try_sort_by
    rw [hout]
  have hcmp : (fun a b => match pcmp a b with
      | none => none
      | some Ordering.lt => some true
      | some _ => some false) = compare := by
    funext a b
    exact (hpc a b).symm
  refine ⟨?_, ?_, ?_⟩
  · rw [hts]
  · rw [hts]
    exact houts
  · show try_sort_by (fun a b => match pcmp a b with
      | none => none
      | some Ordering.lt => some true
      | some _ => some false) v = try_sort_by compare v
    rw [hcmp]

/-- Witness for C1: the slice `[3.0, 1.0, 2.0]` with the comparator derived
from floating-point `partial_cmp` is totally ordered, so `try_sort` /
`try_sort_by` succeeds and sorts it. -/
theorem c1_witness :
    (try_sort_by (fun a b : Option Int => match float_cmp a b with
      | none => none
      | some Ordering.lt => some true
      | some _ => some false) [some 3, some 1, some 2]).1 = Except.ok () ∧
    sorted_le (fun a b : Option Int => match float_cmp a b with
      | some Ordering.lt => true
      | _ => false)
      (try_sort_by (fun a b : Option Int => match float_cmp a b with
        | none => none
        | some Ordering.lt => some true
        | some _ => some false) [some 3, some 1, some 2]).2 ∧
    try_sort float_cmp [some 3, some 1, some 2]
      = try_sort_by (fun a b : Option Int => match float_cmp a b with
        | none => none
        | some Ordering.lt => some true
        | some _ => some false) [some 3, some 1, some 2] :=
  c1_try_sort_sorts _ float_cmp _ [some 3, some 1, some 2]
    (by decide) (by decide) (by decide) (fun a b => rfl)

/-- Claim C2: for every slice and every comparator — including ones that are
never defined — the slice after `try_sort_by` / `try_sort`, whether the call
returned `Ok` or `Err`, is a permutation of the slice before it: the
`InsertionHole` / `MergeHole` drop guards of the source restore every element
on an aborted copy, so nothing is dropped or duplicated. -/
theorem c2_try_sort_permutation (compare : α → α → Option Bool)
    (pcmp : α → α → Option Ordering) (v : List α) :
    (try_sort_by compare v).2.Perm v ∧ (try_sort pcmp v).2.Perm v := by
  have key : ∀ c : α → α → Option Bool, (try_sort_by c v).2.Perm v := by
    intro c
    have h := merge_sort_state_perm c v
    unfold try_sort_by
    cases hm : merge_sort c v with
    | ok w =>
      rw [hm] at h
      simpa [exc_state] using h
    | error w =>
      rw [hm] at h
      simpa [exc_state] using h
  exact ⟨key compare, key (fun a b => match pcmp a b with
    | none => none
    | some Ordering.lt => some true
    | some _ => some false)⟩

/-- Claim C4: stability of `try_sort_by`.  When the comparator totally orders
the occurring values (same consistency hypotheses as C1), the subsequence of
elements comparing equal to any given element `x` of the slice is unchanged
by the sort — equal-comparing elements keep their relative input order. -/
theorem c4_try_sort_stable (compare : α → α → Option Bool)
    (f : α → α → Bool) (v : List α)
    (hdef : ∀ x ∈ v, ∀ y ∈ v, compare x y = some (f x y))
    (hasym : ∀ x ∈ v, ∀ y ∈ v, f x y = true → f y x = false)
    (hneg : ∀ x ∈ v, ∀ y ∈ v, ∀ z ∈ v, f x z = true →
      f x y = true ∨ f y z = true)
    (x : α) (hx : x ∈ v) :
    (try_sort_by compare v).2.filter (eqvb f x) = v.filter (eqvb f x) := by
  have hdef' : ∀ a b : α, a ∈ v → b ∈ v → compare a b = some (f a b) :=
    fun a b ha hb => hdef a ha b hb
  have hasym' : ∀ a b : α, a ∈ v → b ∈ v → f a b = true → f b a = false :=
    fun a b ha hb => hasym a ha b hb
  have hneg' : ∀ a b c : α, a ∈ v → b ∈ v → c ∈ v → f a c = true →
      f a b = true ∨ f b c = true :=
    fun a b c ha hb hc => hneg a ha b hb c hc
  obtain ⟨out, hout, -, houtf⟩ := merge_sort_sorts (P := fun t => t ∈ v)
    hdef' hasym' hneg' v (fun a ha => ha)
  have hts : try_sort_by compare v = (Except.ok (), out) := by
    unfold try_sort_by
    rw [hout]
  rw [hts]
  exact houtf x hx

/-- Witness for C4: the slice `[(1.0, #0), (0.0, #1), (1.0, #2), (0.0, #3)]`
(value, original index) sorted by value only: the elements equal to
`(1.0, #0)` appear after the sort in the original index order `#0, #2`. -/
theorem c4_witness :
    (try_sort_by (fun a b : Option Int × Nat => match float_cmp a.1 b.1 with
      | none => none
      | some Ordering.lt => some true
      | some _ => some false)
      [(some 1, 0), (some 0, 1), (some 1, 2), (some 0, 3)]).2.filter
        (eqvb (fun a b : Option Int × Nat =>
          match float_cmp a.1 b.1 with
          | some Ordering.lt => true
          | _ => false) (some 1, 0))
    = ([(some 1, 0), (some 0, 1), (some 1, 2), (some 0, 3)]
        : List (Option Int × Nat)).filter
        (eqvb (fun a b : Option Int × Nat =>
          match float_cmp a.1 b.1 with
          | some Ordering.lt => true
          | _ => false) (some 1, 0)) :=
  c4_try_sort_stable _ _ _ (by decide) (by decide) (by decide)
    (some 1, 0) (by decide)
